import Mathlib

/-!
A shallow embedding of the LZSS codec in `src/lzss.c` (encoder `EncodeLZSS`,
decoder `DecodeLZSS`), together with proofs of the specification claims.

Bytes are modelled as natural numbers; C `unsigned char` / `int` arithmetic is
modelled on `Nat` with explicit `% 256` where 8-bit overflow matters.  The
C `while` / `for` loops are modelled as structurally recursive functions; where
the loop variable is not itself structural, an explicit iteration-count fuel is
used (the fuel is always chosen large enough, which the lemmas verify).
-/

/-- Size of the sliding window (`WINDOW_SIZE` in lzss.c). -/
def WINDOW_SIZE : Nat := 1023

/-- Size of the staging buffer `uncodedLookahead` (`MAX_CODED` = 61 + 2 + 1). -/
def MAX_CODED : Nat := 64

/-- Maximum encodable match length (`MAX_LENGTH` in lzss.c). -/
def MAX_LENGTH : Nat := 63

/-- The byte-count loop of the encoder's match search (lzss.c lines 441-447):
counts how many consecutive bytes starting at `cur` and `cand` agree, up to the
given bound. -/
def countMatch (B : List Nat) (cur cand : Nat) : Nat → Nat
  | 0 => 0
  | m + 1 =>
    if B.getD cur 0 = B.getD cand 0 then countMatch B (cur + 1) (cand + 1) m + 1
    else 0

/-- The encoder's candidate scan (lzss.c lines 417-463): iterates
`searchOffset` (`d`) ascending, carrying the best `(length, offset)` pair.
`fuel` counts the remaining candidate offsets (the caller passes
`searchLimit - 2`, so the body runs for `d = 3, ..., searchLimit`).
Returns `(bestLength, bestOffset)`. -/
def searchFrom (B : List Nat) (pos remaining : Nat) : Nat → Nat → Nat → Nat → Nat × Nat
  | 0, _, bl, bo => (bl, bo)
  | fuel + 1, d, bl, bo =>
    if B.getD pos 0 ≠ B.getD (pos - d) 0 then
      searchFrom B pos remaining fuel (d + 1) bl bo
    else if bl < remaining ∧ B.getD (pos + bl) 0 ≠ B.getD (pos - d + bl) 0 then
      searchFrom B pos remaining fuel (d + 1) bl bo
    else
      let maxCheck := min remaining d
      let matchLen := countMatch B pos (pos - d) maxCheck
      let bl2 := if bl < matchLen then matchLen else bl
      let bo2 := if bl < matchLen then d else bo
      if MAX_LENGTH < matchLen then (MAX_LENGTH, d)
      else searchFrom B pos remaining fuel (d + 1) bl2 bo2

/-- One position's full match search in the encoder (lzss.c lines 404-470):
search limit, guarded scan from offset 3, and the final cap to `MAX_LENGTH`. -/
def findBest (B : List Nat) (pos : Nat) : Nat × Nat :=
  let remaining := B.length - pos
  let searchLimit := if pos ≤ WINDOW_SIZE then pos else WINDOW_SIZE
  let r := if 3 ≤ searchLimit then searchFrom B pos remaining (searchLimit - 2) 3 2 0
           else (2, 0)
  (if MAX_LENGTH < r.1 then MAX_LENGTH else r.1, r.2)

/-- The encoder main loop (lzss.c lines 402-510).  State: current input
position, the flag byte being built, the current flag bit, the buffered wire
bytes of the current group, and the bytes written so far.  `fuel` bounds the
number of iterations (each iteration advances `pos` by at least 1, so
`B.length` is always enough). -/
def encodeLoop (B : List Nat) : Nat → Nat → Nat → Nat → List Nat → List Nat →
    Nat × Nat × List Nat × List Nat
  | 0, _, flags, flagPos, encData, out => (flags, flagPos, encData, out)
  | fuel + 1, pos, flags, flagPos, encData, out =>
    if pos < B.length then
      let r := findBest B pos
      let st :=
        if 3 ≤ r.1 ∧ 3 ≤ r.2 then
          (flags ||| flagPos, encData ++ [(r.2 >>> 8) ||| (r.1 <<< 2), r.2 &&& 0xFF],
           pos + r.1)
        else
          (flags, encData ++ [B.getD pos 0], pos + 1)
      if flagPos = 1 then
        encodeLoop B fuel st.2.2 0 128 [] (out ++ st.1 :: st.2.1)
      else
        encodeLoop B fuel st.2.2 st.1 (flagPos >>> 1) st.2.1 out
    else (flags, flagPos, encData, out)

/-- The exact-padding token-insertion loop (lzss.c lines 521-532): while the
flushed size would be misaligned and flag bits remain, append a zero `(0,0)`
match token to the pending group.  `fuel` bounds iterations (8 is enough). -/
def exactPadLoop (cs : Nat) : Nat → Nat → Nat → List Nat → Nat × List Nat
  | 0, flags, _, encData => (flags, encData)
  | fuel + 1, flags, flagPos, encData =>
    if (cs + encData.length + 1) % 16 ≠ 0 then
      if flagPos = 0 then (flags, encData)
      else exactPadLoop cs fuel (flags ||| flagPos) (flagPos >>> 1) (encData ++ [0, 0])
    else (flags, encData)

/-- The exact-padding remainder table (lzss.c line 547). -/
def padding_lengths : List Nat :=
  [0x0, 0x1, 0x12, 0x3, 0x14, 0x5, 0x16, 0x7, 0x18, 0x9, 0x1A, 0xB, 0x1C, 0xD, 0x1E,
   0xF, 0x0]

/-- The 17-byte exact-padding block (lzss.c line 548): all-ones flag byte then
16 zero bytes. -/
def padding_block : List Nat :=
  [0xFF, 0x0, 0x0, 0x0, 0x0, 0x0, 0x0, 0x0, 0x0, 0x0, 0x0, 0x0, 0x0, 0x0, 0x0, 0x0,
   0x0]

/-- The exact-padding trailing blocks (lzss.c lines 545-554). -/
def blockPadBytes (cs : Nat) : List Nat :=
  let remainder := 16 - cs % 16
  let r := padding_lengths.getD remainder 0
  (List.range r).map fun i => padding_block.getD (i % 0x11) 0

/-- The plain zero padding (lzss.c lines 555-562): append `0x00` until the
output size is a multiple of 16. -/
def plainPadBytes (cs : Nat) : List Nat := List.replicate ((16 - cs % 16) % 16) 0

/-- `EncodeLZSS` (lzss.c lines 362-565) on an in-memory byte list.
`dontPad` is the `-p` flag (suppress plain padding), `exactPad` the `-e` flag.
Empty input returns immediately with no output (lines 377-380). -/
def EncodeLZSS (B : List Nat) (dontPad exactPad : Bool) : List Nat :=
  if B.length = 0 then []
  else
    match encodeLoop B B.length 0 0 128 [] [] with
    | (flags, flagPos, encData, out) =>
      let out :=
        if encData.length ≠ 0 then
          match (if exactPad ∧ (out.length + encData.length + 1) % 16 ≠ 0 then
                   exactPadLoop out.length 8 flags flagPos encData
                 else (flags, encData)) with
          | (flags2, encData2) => out ++ flags2 :: encData2
        else out
      let out := if exactPad then out ++ blockPadBytes out.length else out
      if dontPad = false then out ++ plainPadBytes out.length else out

/-- The decoder's sliding window before any byte is decoded: every slot primed
with `0x11` (lzss.c lines 600-603). -/
def initWindow : Nat → Nat := fun _ => 0x11

/-- Writing one slot of the sliding window. -/
def wupd (w : Nat → Nat) (i v : Nat) : Nat → Nat := fun j => if j = i then v else w j

/-- Wire decoding of a match's offset (lzss.c line 651). -/
def decodeWireOffset (b0 b1 : Nat) : Nat := b1 + ((b0 &&& 0x03) <<< 8)

/-- Wire decoding of a match's length (lzss.c line 652). -/
def decodeWireLength (b0 : Nat) : Nat := b0 >>> 2

/-- The decoder's match source index (lzss.c lines 662-668): branch on
`nextChar ≥ offset`, then reduce modulo the window size. -/
def decodeSrcPos (nextChar offset i : Nat) : Nat :=
  (if offset ≤ nextChar then nextChar - offset + i
   else WINDOW_SIZE - offset + nextChar + i) % WINDOW_SIZE

/-- The decoder's window write index for match replay (lzss.c line 676). -/
def decodeDstPos (pos : Nat) : Nat := pos % WINDOW_SIZE

/-- Second phase of the decoder's two-phase copy (lzss.c lines 674-678): write
the staged bytes into the window at consecutive (wrapped) positions. -/
def writeStaged (w : Nat → Nat) (pos : Nat) : List Nat → (Nat → Nat)
  | [] => w
  | s :: ss => writeStaged (wupd w (decodeDstPos pos) s) (pos + 1) ss

/-- The decoder main loop (lzss.c lines 605-682).  State: remaining input,
current flag byte, number of flag bits consumed, window cursor `nextChar`, and
the window.  Returns the bytes emitted from this state on.  Each iteration
first shifts the flag byte (8-bit) and, when 8 bits have been consumed, reads
a fresh flag byte (end of input there is normal termination); then it
processes one literal or one match, stopping if the input ends mid-token. -/
def decodeLoop : List Nat → Nat → Nat → Nat → (Nat → Nat) → List Nat
  | input, flags, flagsUsed, nextChar, w =>
    if flagsUsed + 1 = 8 then
      match input with
      | [] => []
      | c :: rest =>
        let f := c &&& 0xFF
        if f &&& 0x80 = 0 then
          match rest with
          | [] => []
          | b :: rest2 =>
            b :: decodeLoop rest2 f 0 ((nextChar + 1) % WINDOW_SIZE) (wupd w nextChar b)
        else
          match rest with
          | [] => []
          | b0 :: rest2 =>
            match rest2 with
            | [] => []
            | b1 :: rest3 =>
              let offset := decodeWireOffset b0 b1
              let len := decodeWireLength b0
              let staged := (List.range len).map fun i => w (decodeSrcPos nextChar offset i)
              staged ++ decodeLoop rest3 f 0 ((nextChar + len) % WINDOW_SIZE)
                (writeStaged w nextChar staged)
    else
      let f := (flags <<< 1) % 256
      let fu := flagsUsed + 1
      if f &&& 0x80 = 0 then
        match input with
        | [] => []
        | b :: rest =>
          b :: decodeLoop rest f fu ((nextChar + 1) % WINDOW_SIZE) (wupd w nextChar b)
      else
        match input with
        | [] => []
        | b0 :: rest =>
          match rest with
          | [] => []
          | b1 :: rest2 =>
            let offset := decodeWireOffset b0 b1
            let len := decodeWireLength b0
            let staged := (List.range len).map fun i => w (decodeSrcPos nextChar offset i)
            staged ++ decodeLoop rest2 f fu ((nextChar + len) % WINDOW_SIZE)
              (writeStaged w nextChar staged)

/-- `DecodeLZSS` (lzss.c lines 583-683) on an in-memory byte list: initial
state has `flags = 0`, `flagsUsed = 7`, `nextChar = 0` and the primed window. -/
def DecodeLZSS (input : List Nat) : List Nat := decodeLoop input 0 7 0 initWindow

/-!
### Token-level view of the encoder

The encoder's decisions form a stream of tokens (literal byte, or a
`(offset, length)` match).  The following definitions reify that stream; they
are related to `EncodeLZSS` by proved equations below.
-/

/-- One encoder decision: a literal byte or an `(offset, length)` match. -/
inductive Token where
  | lit : Nat → Token
  | copy : Nat → Nat → Token
deriving DecidableEq

/-- Whether a token is a match (its flag bit is 1). -/
def Token.isCopy : Token → Bool
  | .lit _ => false
  | .copy _ _ => true

/-- How far a token advances the output position. -/
def Token.adv : Token → Nat
  | .lit _ => 1
  | .copy _ l => l

/-- Total output advance of a token list. -/
def advTs : List Token → Nat
  | [] => 0
  | t :: ts => t.adv + advTs ts

/-- The flag bit contributed by a token. -/
def kindBit (t : Token) : Nat := if t.isCopy then 1 else 0

/-- Wire bytes of one token, as written by the encoder (lzss.c lines 478-479
for matches, line 486 for literals). -/
def wireOf : Token → List Nat
  | .lit b => [b]
  | .copy d l => [(d >>> 8) ||| (l <<< 2), d &&& 0xFF]

/-- Wire bytes of a token list. -/
def wireAll : List Token → List Nat
  | [] => []
  | t :: ts => wireOf t ++ wireAll ts

/-- Flag bits of a group of tokens, starting at bit index `k` from the top
(token `i` of a group contributes bit `0x80 >>> i`). -/
def flagBitsAux : List Token → Nat → Nat
  | [], _ => 0
  | t :: ts, k => kindBit t * 2 ^ (7 - k) + flagBitsAux ts (k + 1)

/-- The flag byte of one (possibly short) group of at most 8 tokens. -/
def flagByteOf (g : List Token) : Nat := flagBitsAux g 0

/-- Frame a token stream into flag groups of 8, flushing a final short group
(the byte stream the encoder emits when no padding is added). -/
def frameTokens : List Token → List Nat
  | [] => []
  | t :: ts =>
    (flagByteOf (t :: ts.take 7) :: wireAll (t :: ts.take 7)) ++ frameTokens (ts.drop 7)
termination_by ts => ts.length
decreasing_by simp; omega

/-- Frame only the full groups of 8 of a token stream (what the encoder main
loop has flushed when it exhausts the input). -/
def frameFullBytes (ts : List Token) : List Nat :=
  if h : 8 ≤ ts.length then
    (flagByteOf (ts.take 8) :: wireAll (ts.take 8)) ++ frameFullBytes (ts.drop 8)
  else []
termination_by ts.length
decreasing_by simp only [List.length_drop]; omega

/-- The trailing short group of a token stream (pending, unflushed tokens of
the encoder main loop). -/
def lastFrag (ts : List Token) : List Token := ts.drop (ts.length / 8 * 8)

/-- The bytes of one flushed (possibly short) trailing flag group; empty when
there are no pending tokens. -/
def frameFrag (P : List Token) : List Nat :=
  if P = [] then [] else flagByteOf P :: wireAll P

/-- The encoder's token stream from a given position; `fuel` bounds the number
of tokens (`B.length` always suffices). -/
def tokenizeFrom (B : List Nat) : Nat → Nat → List Token
  | 0, _ => []
  | fuel + 1, pos =>
    if pos < B.length then
      let r := findBest B pos
      if 3 ≤ r.1 ∧ 3 ≤ r.2 then Token.copy r.2 r.1 :: tokenizeFrom B fuel (pos + r.1)
      else Token.lit (B.getD pos 0) :: tokenizeFrom B fuel (pos + 1)
    else []

/-- The encoder's full token stream. -/
def tokenize (B : List Nat) : List Token := tokenizeFrom B B.length 0

/-- The bytes a correct decoder emits for a token list that describes `B`
from position `p`. -/
def tokensOut (B : List Nat) : Nat → List Token → List Nat
  | _, [] => []
  | p, .lit _ :: ts => B.getD p 0 :: tokensOut B (p + 1) ts
  | p, .copy _ l :: ts =>
    ((List.range l).map fun i => B.getD (p + i) 0) ++ tokensOut B (p + l) ts

/-- Validity of a token list with respect to the source bytes `B` from
position `p`: literals carry the byte at their position, matches point back at
genuinely equal bytes within the window and within the length/offset caps, and
`(0, 0)` no-op padding matches are allowed anywhere. -/
inductive ValidFrom (B : List Nat) : Nat → List Token → Prop where
  | nil : ∀ p, ValidFrom B p []
  | lit : ∀ p b ts, p < B.length → b = B.getD p 0 → ValidFrom B (p + 1) ts →
      ValidFrom B p (Token.lit b :: ts)
  | copy : ∀ p d l ts, 3 ≤ d → d ≤ p → d ≤ WINDOW_SIZE → 3 ≤ l → l ≤ MAX_LENGTH →
      l ≤ d → p + l ≤ B.length →
      (∀ i, i < l → B.getD (p + i) 0 = B.getD (p - d + i) 0) →
      ValidFrom B (p + l) ts → ValidFrom B p (Token.copy d l :: ts)
  | pad : ∀ p ts, ValidFrom B p ts → ValidFrom B p (Token.copy 0 0 :: ts)

/-- The decoder window invariant: after `p` bytes of `B` have been produced,
every one of the last `WINDOW_SIZE` positions of `B` is stored in its window
slot. -/
def WInv (B : List Nat) (p : Nat) (w : Nat → Nat) : Prop :=
  ∀ j, j < p → p ≤ j + WINDOW_SIZE → w (j % WINDOW_SIZE) = B.getD j 0

/-- The number of bytes the match search compares for candidate offset `d`
(`min(remaining, d)` many, from `pos` against `pos - d`). -/
def matchLenAt (B : List Nat) (pos rem d : Nat) : Nat :=
  countMatch B pos (pos - d) (min rem d)

/-- The candidate scan of `searchFrom` with the two quick rejection checks
removed (full compare at every candidate offset). -/
def searchFromNR (B : List Nat) (pos remaining : Nat) : Nat → Nat → Nat → Nat → Nat × Nat
  | 0, _, bl, bo => (bl, bo)
  | fuel + 1, d, bl, bo =>
    let maxCheck := min remaining d
    let matchLen := countMatch B pos (pos - d) maxCheck
    let bl2 := if bl < matchLen then matchLen else bl
    let bo2 := if bl < matchLen then d else bo
    if MAX_LENGTH < matchLen then (MAX_LENGTH, d)
    else searchFromNR B pos remaining fuel (d + 1) bl2 bo2

/-- `findBest` built on the rejection-free scan. -/
def findBestNR (B : List Nat) (pos : Nat) : Nat × Nat :=
  let remaining := B.length - pos
  let searchLimit := if pos ≤ WINDOW_SIZE then pos else WINDOW_SIZE
  let r := if 3 ≤ searchLimit then searchFromNR B pos remaining (searchLimit - 2) 3 2 0
           else (2, 0)
  (if MAX_LENGTH < r.1 then MAX_LENGTH else r.1, r.2)

/-- The `(0,0)` no-op padding token. -/
def noopTok : Token := Token.copy 0 0

/-- Postcondition of the candidate scan: the best pair is either still the
initial `(2, 0)` or a genuine match within all the caps. -/
def GoodSt (B : List Nat) (pos rem limit bl bo : Nat) : Prop :=
  (bl = 2 ∧ bo = 0) ∨
  (3 ≤ bl ∧ bl ≤ MAX_LENGTH ∧ 3 ≤ bo ∧ bo ≤ limit ∧ bl ≤ bo ∧ bl ≤ rem ∧
    ∀ i, i < bl → B.getD (pos + i) 0 = B.getD (pos - bo + i) 0)

/-!
### Bit-level bridge lemmas

The C source uses `&`, `|`, `<<`, `>>` on small nonnegative integers; these
lemmas convert the corresponding `Nat` operations to division/remainder
arithmetic so that `omega` can finish the reasoning.
-/

theorem and255_eq_mod (x : Nat) : x &&& 0xFF = x % 256 := by
  have h := Nat.and_pow_two_sub_one_eq_mod x 8
  norm_num at h
  exact h

theorem and3_eq_mod (x : Nat) : x &&& 0x03 = x % 4 := by
  have h := Nat.and_pow_two_sub_one_eq_mod x 2
  norm_num at h
  exact h

theorem shiftRight8_eq (x : Nat) : x >>> 8 = x / 256 := by
  have h := Nat.shiftRight_eq_div_pow x 8
  norm_num at h
  exact h

theorem shiftRight2_eq (x : Nat) : x >>> 2 = x / 4 := by
  have h := Nat.shiftRight_eq_div_pow x 2
  norm_num at h
  exact h

theorem shiftRight1_eq (x : Nat) : x >>> 1 = x / 2 := by
  have h := Nat.shiftRight_eq_div_pow x 1
  norm_num at h
  exact h

theorem shiftLeft8_eq (x : Nat) : x <<< 8 = x * 256 := by
  have h := Nat.shiftLeft_eq x 8
  norm_num at h
  exact h

theorem shiftLeft2_eq (x : Nat) : x <<< 2 = x * 4 := by
  have h := Nat.shiftLeft_eq x 2
  norm_num at h
  exact h

theorem shiftLeft1_eq (x : Nat) : x <<< 1 = x * 2 := by
  have h := Nat.shiftLeft_eq x 1
  norm_num at h
  exact h

set_option maxRecDepth 4000 in
theorem and128_eq_zero_iff : ∀ x, x < 256 → (x &&& 0x80 = 0 ↔ x < 128) := by decide

theorem or_two_pow_eq_add (a k : Nat) (ha : a % 2 ^ (k + 1) = 0) :
    a ||| 2 ^ k = a + 2 ^ k := by
  obtain ⟨m, hm⟩ : 2 ^ (k + 1) ∣ a := Nat.dvd_of_mod_eq_zero ha
  subst hm
  have hlt : 2 ^ k < 2 ^ (k + 1) := Nat.pow_lt_pow_succ (by norm_num)
  have h := Nat.mul_add_lt_is_or hlt m
  exact h.symm

theorem wire_byte0_eq (d l : Nat) (hd : d < 1024) :
    (d >>> 8) ||| (l <<< 2) = l * 4 + d / 256 := by
  have h3 : d / 256 < 2 ^ 2 := by omega
  have h4 := Nat.mul_add_lt_is_or h3 l
  rw [show (2 : Nat) ^ 2 = 4 from by norm_num, Nat.mul_comm 4 l] at h4
  rw [shiftRight8_eq, shiftLeft2_eq, Nat.or_comm]
  exact h4.symm

theorem decodeWireOffset_wire (d l : Nat) (hd : d ≤ 1023) :
    decodeWireOffset ((d >>> 8) ||| (l <<< 2)) (d &&& 0xFF) = d := by
  unfold decodeWireOffset
  rw [wire_byte0_eq d l (by omega), and255_eq_mod, and3_eq_mod, shiftLeft8_eq]
  omega

theorem decodeWireLength_wire (d l : Nat) (hd : d ≤ 1023) :
    decodeWireLength ((d >>> 8) ||| (l <<< 2)) = l := by
  unfold decodeWireLength
  rw [wire_byte0_eq d l (by omega), shiftRight2_eq]
  omega

theorem mul_pow_mod_and128 (f i : Nat) (hi : i ≤ 7) :
    ((f * 2 ^ i) % 256 &&& 0x80 = 0) ↔ f / 2 ^ (7 - i) % 2 = 0 := by
  rw [and128_eq_zero_iff _ (Nat.mod_lt _ (by norm_num))]
  interval_cases i
  all_goals omega

/-!
### Flag-byte lemmas
-/

theorem flagBitsAux_lt (ts : List Token) :
    ∀ k, k + ts.length ≤ 8 → flagBitsAux ts k < 2 ^ (8 - k) := by
  induction ts with
  | nil => intro k _; simp only [flagBitsAux]; positivity
  | cons t ts ih =>
    intro k hk
    simp only [flagBitsAux]
    have h1 := ih (k + 1) (by simp at hk ⊢; omega)
    have h2 : kindBit t ≤ 1 := by unfold kindBit; split <;> norm_num
    have h3 : (8 : Nat) - (k + 1) = 7 - k := by simp at hk; omega
    rw [h3] at h1
    have h4 : 2 ^ (8 - k) = 2 ^ (7 - k) + 2 ^ (7 - k) := by
      have : (8 : Nat) - k = (7 - k) + 1 := by simp at hk; omega
      rw [this, pow_succ]; ring
    have h5 : kindBit t * 2 ^ (7 - k) ≤ 2 ^ (7 - k) := by
      calc kindBit t * 2 ^ (7 - k) ≤ 1 * 2 ^ (7 - k) := by
            exact Nat.mul_le_mul_right _ h2
        _ = 2 ^ (7 - k) := by ring
    omega

theorem flagBitsAux_div (ts : List Token) :
    ∀ k i, k + ts.length ≤ 8 → i < ts.length →
      flagBitsAux ts k / 2 ^ (7 - (k + i)) % 2 = kindBit (ts.getD i noopTok) := by
  induction ts with
  | nil => intro k i _ hi; simp at hi
  | cons t ts ih =>
    intro k i hk hi
    simp only [flagBitsAux]
    match i with
    | 0 =>
      have hr := flagBitsAux_lt ts (k + 1) (by simp at hk; omega)
      have h3 : (8 : Nat) - (k + 1) = 7 - k := by simp at hk; omega
      rw [h3] at hr
      have hpos : (0 : Nat) < 2 ^ (7 - k) := by positivity
      simp only [Nat.add_zero, List.getD_cons_zero]
      rw [Nat.add_comm, Nat.mul_comm (kindBit t), Nat.add_mul_div_left _ _ hpos,
        Nat.div_eq_of_lt hr]
      have h2 : kindBit t ≤ 1 := by unfold kindBit; split <;> norm_num
      omega
    | i + 1 =>
      simp only [List.getD_cons_succ]
      have hkl : k + 1 + i ≤ 7 := by simp at hk hi; omega
      have hsplit : (7 : Nat) - k = (i + 1) + (7 - (k + 1 + i)) := by omega
      have hexp : (7 : Nat) - (k + (i + 1)) = 7 - (k + 1 + i) := by omega
      rw [hexp]
      have hterm : kindBit t * 2 ^ (7 - k)
          = 2 ^ (7 - (k + 1 + i)) * (kindBit t * 2 ^ (i + 1)) := by
        rw [hsplit, pow_add]; ring
      have hpos : (0 : Nat) < 2 ^ (7 - (k + 1 + i)) := by positivity
      rw [hterm, Nat.add_comm, Nat.add_mul_div_left _ _ hpos]
      have heven : (kindBit t * 2 ^ (i + 1)) % 2 = 0 := by
        have : kindBit t * 2 ^ (i + 1) = (kindBit t * 2 ^ i) * 2 := by rw [pow_succ]; ring
        omega
      have := ih (k + 1) i (by simp at hk; omega) (by simp at hi; omega)
      omega

theorem flagByteOf_lt (g : List Token) (hg : g.length ≤ 8) : flagByteOf g < 256 := by
  have := flagBitsAux_lt g 0 (by omega)
  norm_num at this
  exact this

theorem flagByte_test (g : List Token) (i : Nat) (hg : g.length ≤ 8) (hi : i < g.length) :
    ((flagByteOf g * 2 ^ i) % 256 &&& 0x80 = 0) ↔ (g.getD i noopTok).isCopy = false := by
  rw [mul_pow_mod_and128 _ i (by omega)]
  unfold flagByteOf
  have h := flagBitsAux_div g 0 i (by omega) hi
  rw [Nat.zero_add] at h
  rw [h]
  unfold kindBit
  rcases hc : (g.getD i noopTok).isCopy <;> simp [hc]

theorem flagBitsAux_dvd (ts : List Token) :
    ∀ k, k + ts.length ≤ 8 → 2 ^ (8 - (k + ts.length)) ∣ flagBitsAux ts k := by
  induction ts with
  | nil => intro k _; simp [flagBitsAux]
  | cons t ts ih =>
    intro k hk
    simp only [flagBitsAux, List.length_cons]
    apply Nat.dvd_add
    · apply Dvd.dvd.mul_left
      apply pow_dvd_pow
      simp at hk; omega
    · have := ih (k + 1) (by simp at hk; omega)
      have hexp : 8 - (k + 1 + ts.length) = 8 - (k + (ts.length + 1)) := by omega
      rw [hexp] at this
      exact this

theorem flagBitsAux_append (P : List Token) (t : Token) :
    ∀ k, flagBitsAux (P ++ [t]) k = flagBitsAux P k + kindBit t * 2 ^ (7 - (k + P.length)) := by
  induction P with
  | nil => intro k; simp [flagBitsAux]
  | cons p P ih =>
    intro k
    have h1 : (p :: P) ++ [t] = p :: (P ++ [t]) := by simp
    rw [h1]
    simp only [flagBitsAux]
    rw [ih (k + 1)]
    simp only [List.length_cons]
    have : k + 1 + P.length = k + (P.length + 1) := by omega
    rw [this]
    ring

/-!
### The match search: counting lemmas and postcondition
-/

theorem countMatch_le (B : List Nat) : ∀ n cur cand, countMatch B cur cand n ≤ n := by
  intro n
  induction n with
  | zero => intro cur cand; simp [countMatch]
  | succ m ih =>
    intro cur cand
    simp only [countMatch]
    split
    · have := ih (cur + 1) (cand + 1); omega
    · omega

theorem countMatch_eq (B : List Nat) :
    ∀ n cur cand j, j < countMatch B cur cand n →
      B.getD (cur + j) 0 = B.getD (cand + j) 0 := by
  intro n
  induction n with
  | zero => intro cur cand j h; simp [countMatch] at h
  | succ m ih =>
    intro cur cand j h
    simp only [countMatch] at h
    by_cases h0 : B.getD cur 0 = B.getD cand 0
    · rw [if_pos h0] at h
      match j with
      | 0 => simpa using h0
      | j + 1 =>
        have := ih (cur + 1) (cand + 1) j (by omega)
        have e1 : cur + 1 + j = cur + (j + 1) := by omega
        have e2 : cand + 1 + j = cand + (j + 1) := by omega
        rw [e1, e2] at this
        exact this
    · rw [if_neg h0] at h; omega

theorem countMatch_zero_of_ne (B : List Nat) (cur cand : Nat)
    (h : B.getD cur 0 ≠ B.getD cand 0) : ∀ n, countMatch B cur cand n = 0 := by
  intro n
  cases n with
  | zero => rfl
  | succ m => simp only [countMatch]; rw [if_neg h]

theorem searchFrom_good (B : List Nat) (pos rem limit : Nat) :
    ∀ fuel d bl bo, d + fuel ≤ limit + 1 → 3 ≤ d → GoodSt B pos rem limit bl bo →
      GoodSt B pos rem limit (searchFrom B pos rem fuel d bl bo).1
        (searchFrom B pos rem fuel d bl bo).2 := by
  intro fuel
  induction fuel with
  | zero => intro d bl bo _ _ hg; simpa [searchFrom] using hg
  | succ fuel ih =>
    intro d bl bo hd h3 hg
    have hML : MAX_LENGTH = 63 := rfl
    have hbl2 : 2 ≤ bl := by rcases hg with ⟨h, _⟩ | ⟨h, _⟩ <;> omega
    have hbl63 : bl ≤ MAX_LENGTH := by rcases hg with ⟨h, _⟩ | ⟨_, h, _⟩ <;> omega
    have hcm := countMatch_le B (min rem d) pos (pos - d)
    have hcm1 : countMatch B pos (pos - d) (min rem d) ≤ rem :=
      le_trans hcm (Nat.min_le_left _ _)
    have hcm2 : countMatch B pos (pos - d) (min rem d) ≤ d :=
      le_trans hcm (Nat.min_le_right _ _)
    have hcme := countMatch_eq B (min rem d) pos (pos - d)
    simp only [searchFrom]
    split
    · exact ih (d + 1) bl bo (by omega) (by omega) hg
    · split
      · exact ih (d + 1) bl bo (by omega) (by omega) hg
      · split
        · -- matchLen exceeded MAX_LENGTH: result (MAX_LENGTH, d)
          rename_i hbig
          right
          refine ⟨by omega, by omega, by omega, by omega, by omega, by omega, ?_⟩
          intro i hi
          exact hcme i (by omega)
        · rename_i hsmall
          by_cases hupd : bl < countMatch B pos (pos - d) (min rem d)
          · rw [if_pos hupd, if_pos hupd]
            apply ih (d + 1) _ _ (by omega) (by omega)
            right
            refine ⟨by omega, by omega, by omega, by omega, by omega, by omega, ?_⟩
            intro i hi
            exact hcme i hi
          · rw [if_neg hupd, if_neg hupd]
            exact ih (d + 1) bl bo (by omega) (by omega) hg

theorem findBest_good (B : List Nat) (pos : Nat) :
    GoodSt B pos (B.length - pos) (min pos WINDOW_SIZE) (findBest B pos).1
      (findBest B pos).2 := by
  have hML : MAX_LENGTH = 63 := rfl
  have hmin : (if pos ≤ WINDOW_SIZE then pos else WINDOW_SIZE) = min pos WINDOW_SIZE := by
    rw [Nat.min_def]
  simp only [findBest, hmin]
  by_cases h3 : 3 ≤ min pos WINDOW_SIZE
  · rw [if_pos h3]
    have hg := searchFrom_good B pos (B.length - pos) (min pos WINDOW_SIZE)
      (min pos WINDOW_SIZE - 2) 3 2 0 (by omega) (by omega) (Or.inl ⟨rfl, rfl⟩)
    have hle : (searchFrom B pos (B.length - pos) (min pos WINDOW_SIZE - 2) 3 2 0).1
        ≤ MAX_LENGTH := by
      rcases hg with ⟨h, _⟩ | ⟨_, h, _⟩ <;> omega
    rw [if_neg (by omega)]
    exact hg
  · rw [if_neg h3]
    norm_num
    exact Or.inl ⟨rfl, rfl⟩

/-!
### Tokenisation: validity and coverage
-/

theorem tokenizeFrom_valid (B : List Nat) :
    ∀ fuel pos, ValidFrom B pos (tokenizeFrom B fuel pos) := by
  intro fuel
  induction fuel with
  | zero => intro pos; exact ValidFrom.nil pos
  | succ fuel ih =>
    intro pos
    simp only [tokenizeFrom]
    by_cases hp : pos < B.length
    · rw [if_pos hp]
      have hg := findBest_good B pos
      by_cases hm : 3 ≤ (findBest B pos).1 ∧ 3 ≤ (findBest B pos).2
      · rw [if_pos hm]
        rcases hg with ⟨h1, _⟩ | ⟨h1, h2, h3, h4, h5, h6, h7⟩
        · omega
        · refine ValidFrom.copy pos _ _ _ h3 (by omega) (by
            have := Nat.min_le_right pos WINDOW_SIZE; omega) h1 h2 h5 (by omega) h7
            (ih (pos + (findBest B pos).1))
      · rw [if_neg hm]
        exact ValidFrom.lit pos _ _ hp rfl (ih (pos + 1))
    · rw [if_neg hp]
      exact ValidFrom.nil pos

theorem advTs_tokenizeFrom (B : List Nat) :
    ∀ fuel pos, B.length - pos ≤ fuel → pos ≤ B.length →
      pos + advTs (tokenizeFrom B fuel pos) = B.length := by
  intro fuel
  induction fuel with
  | zero => intro pos h1 h2; simp only [tokenizeFrom, advTs]; omega
  | succ fuel ih =>
    intro pos h1 h2
    simp only [tokenizeFrom]
    by_cases hp : pos < B.length
    · rw [if_pos hp]
      have hg := findBest_good B pos
      by_cases hm : 3 ≤ (findBest B pos).1 ∧ 3 ≤ (findBest B pos).2
      · rw [if_pos hm]
        rcases hg with ⟨h3, _⟩ | ⟨h3, h4, h5, h6, h7, h8, h9⟩
        · omega
        · simp only [advTs, Token.adv]
          have := ih (pos + (findBest B pos).1) (by omega) (by omega)
          omega
      · rw [if_neg hm]
        simp only [advTs, Token.adv]
        have := ih (pos + 1) (by omega) (by omega)
        omega
    · rw [if_neg hp]
      simp only [advTs]; omega

theorem range_map_getD_take (B : List Nat) (pos l : Nat) (h : pos + l ≤ B.length) :
    (List.range l).map (fun i => B.getD (pos + i) 0) = (B.drop pos).take l := by
  apply List.ext_getElem
  · simp [List.length_take, List.length_drop]
    omega
  · intro i h1 h2
    simp only [List.getElem_map, List.getElem_range, List.getElem_take, List.getElem_drop]
    rw [List.getD_eq_getElem]

theorem tokensOut_tokenizeFrom (B : List Nat) :
    ∀ fuel pos, B.length - pos ≤ fuel →
      tokensOut B pos (tokenizeFrom B fuel pos) = B.drop pos := by
  intro fuel
  induction fuel with
  | zero =>
    intro pos h1
    simp only [tokenizeFrom, tokensOut]
    rw [List.drop_eq_nil_of_le (by omega)]
  | succ fuel ih =>
    intro pos h1
    simp only [tokenizeFrom]
    by_cases hp : pos < B.length
    · rw [if_pos hp]
      have hg := findBest_good B pos
      by_cases hm : 3 ≤ (findBest B pos).1 ∧ 3 ≤ (findBest B pos).2
      · rw [if_pos hm]
        rcases hg with ⟨h3, _⟩ | ⟨h3, h4, h5, h6, h7, h8, h9⟩
        · omega
        · simp only [tokensOut]
          rw [ih (pos + (findBest B pos).1) (by omega)]
          rw [range_map_getD_take B pos _ (by omega)]
          rw [← List.drop_drop (findBest B pos).1 pos B]
          exact List.take_append_drop _ _
      · rw [if_neg hm]
        simp only [tokensOut]
        rw [ih (pos + 1) (by omega)]
        rw [List.getD_eq_getElem B 0 hp]
        exact (List.drop_eq_getElem_cons hp).symm
    · rw [if_neg hp]
      simp only [tokensOut]
      rw [List.drop_eq_nil_of_le (by omega)]

/-!
### Splitting token lists
-/

theorem advTs_append (ts1 ts2 : List Token) :
    advTs (ts1 ++ ts2) = advTs ts1 + advTs ts2 := by
  induction ts1 with
  | nil => simp [advTs]
  | cons t ts ih =>
    rw [show (t :: ts) ++ ts2 = t :: (ts ++ ts2) from rfl]
    simp only [advTs]
    omega

theorem tokensOut_append (B : List Nat) :
    ∀ ts1 ts2 p, tokensOut B p (ts1 ++ ts2)
      = tokensOut B p ts1 ++ tokensOut B (p + advTs ts1) ts2 := by
  intro ts1
  induction ts1 with
  | nil => intro ts2 p; simp [tokensOut, advTs]
  | cons t ts ih =>
    intro ts2 p
    match t with
    | Token.lit b =>
      rw [show (Token.lit b :: ts) ++ ts2 = Token.lit b :: (ts ++ ts2) from rfl]
      simp only [tokensOut, advTs, Token.adv]
      rw [ih ts2 (p + 1), show p + (1 + advTs ts) = p + 1 + advTs ts from by omega]
      exact (List.cons_append _ _ _).symm
    | Token.copy d l =>
      rw [show (Token.copy d l :: ts) ++ ts2 = Token.copy d l :: (ts ++ ts2) from rfl]
      simp only [tokensOut, advTs, Token.adv]
      rw [ih ts2 (p + l), List.append_assoc,
        show p + (l + advTs ts) = p + l + advTs ts from by omega]

theorem ValidFrom_append (B : List Nat) :
    ∀ ts1 ts2 p, ValidFrom B p ts1 → ValidFrom B (p + advTs ts1) ts2 →
      ValidFrom B p (ts1 ++ ts2) := by
  intro ts1
  induction ts1 with
  | nil => intro ts2 p _ h2; simpa [advTs] using h2
  | cons t ts ih =>
    intro ts2 p h1 h2
    cases h1 with
    | lit _ b _ hp hb hrest =>
      refine ValidFrom.lit p b _ hp hb (ih ts2 (p + 1) hrest ?_)
      simp only [advTs, Token.adv] at h2
      rw [show p + 1 + advTs ts = p + (1 + advTs ts) from by omega]
      exact h2
    | copy _ d l _ a1 a2 a3 a4 a5 a6 a7 a8 hrest =>
      refine ValidFrom.copy p d l _ a1 a2 a3 a4 a5 a6 a7 a8 (ih ts2 (p + l) hrest ?_)
      simp only [advTs, Token.adv] at h2
      rw [show p + l + advTs ts = p + (l + advTs ts) from by omega]
      exact h2
    | pad _ _ hrest =>
      refine ValidFrom.pad p _ (ih ts2 p hrest ?_)
      simp only [advTs, Token.adv] at h2
      simpa using h2

theorem ValidFrom_append_inv (B : List Nat) :
    ∀ ts1 ts2 p, ValidFrom B p (ts1 ++ ts2) →
      ValidFrom B p ts1 ∧ ValidFrom B (p + advTs ts1) ts2 := by
  intro ts1
  induction ts1 with
  | nil => intro ts2 p h; exact ⟨ValidFrom.nil p, by simpa [advTs] using h⟩
  | cons t ts ih =>
    intro ts2 p h
    cases h with
    | lit _ b _ hp hb hrest =>
      obtain ⟨hv1, hv2⟩ := ih ts2 (p + 1) hrest
      refine ⟨ValidFrom.lit p b _ hp hb hv1, ?_⟩
      simp only [advTs, Token.adv]
      rw [show p + (1 + advTs ts) = p + 1 + advTs ts from by omega]
      exact hv2
    | copy _ d l _ a1 a2 a3 a4 a5 a6 a7 a8 hrest =>
      obtain ⟨hv1, hv2⟩ := ih ts2 (p + l) hrest
      refine ⟨ValidFrom.copy p d l _ a1 a2 a3 a4 a5 a6 a7 a8 hv1, ?_⟩
      simp only [advTs, Token.adv]
      rw [show p + (l + advTs ts) = p + l + advTs ts from by omega]
      exact hv2
    | pad _ _ hrest =>
      obtain ⟨hv1, hv2⟩ := ih ts2 p hrest
      refine ⟨ValidFrom.pad p _ hv1, ?_⟩
      simp only [advTs, Token.adv]
      simpa using hv2

/-!
### Equivalence of the scan with and without the quick rejection checks
-/

theorem searchFrom_eq_NR (B : List Nat) (pos rem : Nat) :
    ∀ fuel d bl bo, bl ≤ MAX_LENGTH →
      searchFrom B pos rem fuel d bl bo = searchFromNR B pos rem fuel d bl bo := by
  intro fuel
  induction fuel with
  | zero => intro d bl bo _; rfl
  | succ fuel ih =>
    intro d bl bo hbl
    have hML : MAX_LENGTH = 63 := rfl
    simp only [searchFrom, searchFromNR]
    by_cases h1 : B.getD pos 0 ≠ B.getD (pos - d) 0
    · rw [if_pos h1]
      have hz := countMatch_zero_of_ne B pos (pos - d) h1 (min rem d)
      rw [hz]
      simp only [if_neg (show ¬MAX_LENGTH < 0 from by omega),
        if_neg (show ¬bl < 0 from by omega)]
      exact ih (d + 1) bl bo hbl
    · rw [if_neg h1]
      by_cases h2 : bl < rem ∧ B.getD (pos + bl) 0 ≠ B.getD (pos - d + bl) 0
      · rw [if_pos h2]
        have hle : countMatch B pos (pos - d) (min rem d) ≤ bl := by
          by_contra hgt
          push_neg at hgt
          exact h2.2 (countMatch_eq B (min rem d) pos (pos - d) bl hgt)
        simp only [if_neg (show ¬MAX_LENGTH < countMatch B pos (pos - d) (min rem d)
            from by omega),
          if_neg (show ¬bl < countMatch B pos (pos - d) (min rem d) from by omega)]
        exact ih (d + 1) bl bo hbl
      · rw [if_neg h2]
        by_cases h3 : MAX_LENGTH < countMatch B pos (pos - d) (min rem d)
        · simp only [if_pos h3]
        · simp only [if_neg h3]
          by_cases h4 : bl < countMatch B pos (pos - d) (min rem d)
          · simp only [if_pos h4]
            exact ih (d + 1) _ _ (by omega)
          · simp only [if_neg h4]
            exact ih (d + 1) bl bo hbl

theorem findBest_eq_NR (B : List Nat) (pos : Nat) : findBest B pos = findBestNR B pos := by
  simp only [findBest, findBestNR]
  by_cases h3 : 3 ≤ (if pos ≤ WINDOW_SIZE then pos else WINDOW_SIZE)
  · rw [if_pos h3, if_pos h3,
      searchFrom_eq_NR B pos (B.length - pos)
        ((if pos ≤ WINDOW_SIZE then pos else WINDOW_SIZE) - 2) 3 2 0
        (by norm_num [MAX_LENGTH])]
  · rw [if_neg h3, if_neg h3]

/-!
### Characterisation of the scan result (tie-break and early clamp)
-/

theorem searchFromNR_spec (B : List Nat) (pos rem : Nat) :
    ∀ fuel d bl bo,
      (∀ e, d ≤ e → e < d + fuel → matchLenAt B pos rem e ≤ MAX_LENGTH) →
      bl ≤ MAX_LENGTH →
      (searchFromNR B pos rem fuel d bl bo = (bl, bo) ∧
        ∀ e, d ≤ e → e < d + fuel → matchLenAt B pos rem e ≤ bl) ∨
      (∃ e, d ≤ e ∧ e < d + fuel ∧ bl < matchLenAt B pos rem e ∧
        searchFromNR B pos rem fuel d bl bo = (matchLenAt B pos rem e, e) ∧
        (∀ e2, d ≤ e2 → e2 < d + fuel →
          matchLenAt B pos rem e2 ≤ matchLenAt B pos rem e) ∧
        (∀ e2, d ≤ e2 → e2 < e → matchLenAt B pos rem e2 < matchLenAt B pos rem e)) := by
  intro fuel
  induction fuel with
  | zero =>
    intro d bl bo _ _
    left
    exact ⟨rfl, fun e h1 h2 => by omega⟩
  | succ fuel ih =>
    intro d bl bo h63 hbl
    have hMLd : matchLenAt B pos rem d = countMatch B pos (pos - d) (min rem d) := rfl
    have hd63 : matchLenAt B pos rem d ≤ MAX_LENGTH := h63 d (le_refl d) (by omega)
    simp only [searchFromNR]
    rw [← hMLd]
    rw [if_neg (by omega)]
    by_cases hupd : bl < matchLenAt B pos rem d
    · rw [if_pos hupd, if_pos hupd]
      rcases ih (d + 1) (matchLenAt B pos rem d) d
          (fun e h1 h2 => h63 e (by omega) (by omega)) (by omega) with
        ⟨heq, hall⟩ | ⟨e, he1, he2, he3, he4, he5, he6⟩
      · right
        refine ⟨d, le_refl d, by omega, hupd, heq, ?_, ?_⟩
        · intro e2 h1 h2
          rcases Nat.eq_or_lt_of_le h1 with h | h
          · subst h; omega
          · exact hall e2 (by omega) (by omega)
        · intro e2 h1 h2
          omega
      · right
        refine ⟨e, by omega, by omega, by omega, he4, ?_, ?_⟩
        · intro e2 h1 h2
          rcases Nat.eq_or_lt_of_le h1 with h | h
          · subst h; omega
          · exact he5 e2 (by omega) (by omega)
        · intro e2 h1 h2
          rcases Nat.eq_or_lt_of_le h1 with h | h
          · subst h; omega
          · exact he6 e2 (by omega) (by omega)
    · rw [if_neg hupd, if_neg hupd]
      rcases ih (d + 1) bl bo
          (fun e h1 h2 => h63 e (by omega) (by omega)) hbl with
        ⟨heq, hall⟩ | ⟨e, he1, he2, he3, he4, he5, he6⟩
      · left
        refine ⟨heq, ?_⟩
        intro e2 h1 h2
        rcases Nat.eq_or_lt_of_le h1 with h | h
        · subst h; omega
        · exact hall e2 (by omega) (by omega)
      · right
        refine ⟨e, by omega, by omega, by omega, he4, ?_, ?_⟩
        · intro e2 h1 h2
          rcases Nat.eq_or_lt_of_le h1 with h | h
          · subst h; omega
          · exact he5 e2 (by omega) (by omega)
        · intro e2 h1 h2
          rcases Nat.eq_or_lt_of_le h1 with h | h
          · subst h; omega
          · exact he6 e2 (by omega) (by omega)

theorem searchFromNR_clamp (B : List Nat) (pos rem : Nat) :
    ∀ fuel d bl bo d0, d ≤ d0 → d0 < d + fuel → bl ≤ MAX_LENGTH →
      MAX_LENGTH < matchLenAt B pos rem d0 →
      (∀ e, d ≤ e → e < d0 → matchLenAt B pos rem e ≤ MAX_LENGTH) →
      searchFromNR B pos rem fuel d bl bo = (MAX_LENGTH, d0) := by
  intro fuel
  induction fuel with
  | zero => intro d bl bo d0 h1 h2 _ _ _; omega
  | succ fuel ih =>
    intro d bl bo d0 h1 h2 hbl hbig hsmall
    have hMLd : matchLenAt B pos rem d = countMatch B pos (pos - d) (min rem d) := rfl
    simp only [searchFromNR]
    rw [← hMLd]
    rcases Nat.eq_or_lt_of_le h1 with he | hlt
    · subst he
      rw [if_pos (by omega)]
    · have hd : matchLenAt B pos rem d ≤ MAX_LENGTH := hsmall d (le_refl d) hlt
      rw [if_neg (by omega)]
      by_cases hupd : bl < matchLenAt B pos rem d
      · rw [if_pos hupd, if_pos hupd]
        exact ih (d + 1) _ _ d0 (by omega) (by omega) (by omega) hbig
          (fun e a1 a2 => hsmall e (by omega) a2)
      · rw [if_neg hupd, if_neg hupd]
        exact ih (d + 1) bl bo d0 (by omega) (by omega) hbl hbig
          (fun e a1 a2 => hsmall e (by omega) a2)

/-!
### Decoder window lemmas
-/

theorem wupd_eq (w : Nat → Nat) (i v : Nat) : wupd w i v i = v := by
  unfold wupd
  simp

theorem wupd_ne (w : Nat → Nat) (i v j : Nat) (h : j ≠ i) : wupd w i v j = w j := by
  unfold wupd
  simp [h]

theorem decodeLoop_nil (F k nc : Nat) (w : Nat → Nat) : decodeLoop [] F k nc w = [] := by
  simp only [decodeLoop]
  split
  · rfl
  · split <;> rfl

theorem shift_flag (f m : Nat) : ((f * 2 ^ m % 256) <<< 1) % 256 = f * 2 ^ (m + 1) % 256 := by
  rw [shiftLeft1_eq, Nat.mod_mul_mod, pow_succ, ← Nat.mul_assoc]

theorem WSIZE : WINDOW_SIZE = 1023 := rfl

theorem WInv_lit (B : List Nat) (p nc : Nat) (w : Nat → Nat) (hw : WInv B p w)
    (hnc : nc = p % WINDOW_SIZE) : WInv B (p + 1) (wupd w nc (B.getD p 0)) := by
  intro j hj1 hj2
  simp only [WSIZE] at hnc hj2 ⊢
  by_cases hje : j = p
  · subst hje
    rw [show j % 1023 = nc from by omega]
    exact wupd_eq w nc _
  · have hlt : j < p := by omega
    rw [wupd_ne w nc _ _ (by omega)]
    have := hw j hlt (by simp only [WSIZE]; omega)
    simpa only [WSIZE] using this

theorem writeStaged_ne (staged : List Nat) :
    ∀ (w : Nat → Nat) (pos q : Nat),
      (∀ i, i < staged.length → (pos + i) % WINDOW_SIZE ≠ q) →
      writeStaged w pos staged q = w q := by
  induction staged with
  | nil => intro w pos q _; rfl
  | cons s ss ih =>
    intro w pos q hq
    simp only [writeStaged]
    rw [ih _ (pos + 1) q (fun i hi => by
      have := hq (i + 1) (by simp; omega)
      rw [show pos + (i + 1) = pos + 1 + i from by omega] at this
      exact this)]
    apply wupd_ne
    have := hq 0 (by simp)
    unfold decodeDstPos
    simp only [WSIZE] at this ⊢
    omega

theorem writeStaged_get (staged : List Nat) :
    ∀ (w : Nat → Nat) (pos i : Nat), i < staged.length → staged.length ≤ WINDOW_SIZE →
      writeStaged w pos staged ((pos + i) % WINDOW_SIZE) = staged.getD i 0 := by
  induction staged with
  | nil => intro w pos i hi _; simp at hi
  | cons s ss ih =>
    intro w pos i hi hlen
    simp only [writeStaged]
    match i with
    | 0 =>
      rw [writeStaged_ne ss _ (pos + 1) _ (fun i hi2 => by
        simp only [WSIZE] at hlen ⊢
        simp at hlen
        have h1 : (pos + 1 + i) % 1023 = (pos + (i + 1)) % 1023 := by
          rw [show pos + 1 + i = pos + (i + 1) from by omega]
        rw [h1]
        omega)]
      rw [show (pos + 0) % WINDOW_SIZE = decodeDstPos pos from by
        unfold decodeDstPos; simp only [WSIZE]; omega]
      rw [wupd_eq]
      rfl
    | i + 1 =>
      simp at hi hlen
      rw [show pos + (i + 1) = pos + 1 + i from by omega]
      rw [ih _ (pos + 1) i (by omega) (by omega)]
      rfl

theorem decodeSrcPos_read (B : List Nat) (p d i nc : Nat) (w : Nat → Nat)
    (hw : WInv B p w) (hnc : nc = p % WINDOW_SIZE) (hdp : d ≤ p) (hdW : d ≤ WINDOW_SIZE)
    (hi : i < d) : w (decodeSrcPos nc d i) = B.getD (p - d + i) 0 := by
  have hsrc : decodeSrcPos nc d i = (p - d + i) % WINDOW_SIZE := by
    unfold decodeSrcPos
    simp only [WSIZE] at hnc hdW ⊢
    split <;> omega
  rw [hsrc]
  exact hw (p - d + i) (by omega) (by simp only [WSIZE] at hdW ⊢; omega)

theorem WInv_copy (B : List Nat) (p l nc : Nat) (w : Nat → Nat) (staged : List Nat)
    (hw : WInv B p w) (hnc : nc = p % WINDOW_SIZE) (hlen : staged.length = l)
    (hlW : l < WINDOW_SIZE) (hstg : ∀ i, i < l → staged.getD i 0 = B.getD (p + i) 0) :
    WInv B (p + l) (writeStaged w nc staged) := by
  intro j hj1 hj2
  simp only [WSIZE] at hnc hj2 hlW ⊢
  by_cases hge : p ≤ j
  · have hiw : j % 1023 = (nc + (j - p)) % WINDOW_SIZE := by
      simp only [WSIZE]; omega
    rw [hiw, writeStaged_get staged w nc (j - p) (by omega)
      (by simp only [WSIZE]; omega), hstg (j - p) (by omega)]
    congr 1
    omega
  · rw [writeStaged_ne staged w nc _ (fun i hi => by simp only [WSIZE]; omega)]
    exact hw j (by omega) (by simp only [WSIZE]; omega)

/-!
### Single-step unfolding lemmas for the decoder loop
-/

theorem decodeLoop_step_lit (b : Nat) (rest : List Nat) (F k nc : Nat) (w : Nat → Nat)
    (hk : ¬k + 1 = 8) (hbit : (F <<< 1) % 256 &&& 0x80 = 0) :
    decodeLoop (b :: rest) F k nc w
      = b :: decodeLoop rest ((F <<< 1) % 256) (k + 1) ((nc + 1) % WINDOW_SIZE)
          (wupd w nc b) := by
  rw [decodeLoop, if_neg hk, if_pos hbit]

theorem decodeLoop_step_copy (b0 b1 : Nat) (rest : List Nat) (F k nc : Nat)
    (w : Nat → Nat) (hk : ¬k + 1 = 8) (hbit : ¬(F <<< 1) % 256 &&& 0x80 = 0) :
    decodeLoop (b0 :: b1 :: rest) F k nc w
      = ((List.range (decodeWireLength b0)).map fun i =>
            w (decodeSrcPos nc (decodeWireOffset b0 b1) i))
        ++ decodeLoop rest ((F <<< 1) % 256) (k + 1)
            ((nc + decodeWireLength b0) % WINDOW_SIZE)
            (writeStaged w nc ((List.range (decodeWireLength b0)).map fun i =>
              w (decodeSrcPos nc (decodeWireOffset b0 b1) i))) := by
  rw [decodeLoop, if_neg hk, if_neg hbit]

theorem decodeLoop_copy_short (b0 : Nat) (F k nc : Nat) (w : Nat → Nat)
    (hk : ¬k + 1 = 8) (hbit : ¬(F <<< 1) % 256 &&& 0x80 = 0) :
    decodeLoop [b0] F k nc w = [] := by
  rw [decodeLoop, if_neg hk, if_neg hbit]

theorem decodeLoop_flag_lit (c b : Nat) (rest : List Nat) (F nc : Nat) (w : Nat → Nat)
    (hbit : c &&& 0xFF &&& 0x80 = 0) :
    decodeLoop (c :: b :: rest) F 7 nc w
      = b :: decodeLoop rest (c &&& 0xFF) 0 ((nc + 1) % WINDOW_SIZE) (wupd w nc b) := by
  rw [decodeLoop, if_pos (by norm_num), if_pos hbit]

theorem decodeLoop_flag_copy (c b0 b1 : Nat) (rest : List Nat) (F nc : Nat)
    (w : Nat → Nat) (hbit : ¬c &&& 0xFF &&& 0x80 = 0) :
    decodeLoop (c :: b0 :: b1 :: rest) F 7 nc w
      = ((List.range (decodeWireLength b0)).map fun i =>
            w (decodeSrcPos nc (decodeWireOffset b0 b1) i))
        ++ decodeLoop rest (c &&& 0xFF) 0 ((nc + decodeWireLength b0) % WINDOW_SIZE)
            (writeStaged w nc ((List.range (decodeWireLength b0)).map fun i =>
              w (decodeSrcPos nc (decodeWireOffset b0 b1) i))) := by
  rw [decodeLoop, if_pos (by norm_num), if_neg hbit]

theorem decodeLoop_flag_end (c : Nat) (F nc : Nat) (w : Nat → Nat) :
    decodeLoop [c] F 7 nc w = [] := by
  rw [decodeLoop, if_pos (by norm_num)]
  by_cases hbit : c &&& 0xFF &&& 0x80 = 0
  · rw [if_pos hbit]
  · rw [if_neg hbit]

theorem decodeLoop_flag_copy_short (c b0 : Nat) (F nc : Nat) (w : Nat → Nat)
    (hbit : ¬c &&& 0xFF &&& 0x80 = 0) :
    decodeLoop [c, b0] F 7 nc w = [] := by
  rw [decodeLoop, if_pos (by norm_num), if_neg hbit]

/-!
### The decoder processes a (partial) flag group of tokens
-/

theorem staged_spec (B : List Nat) (p d l nc : Nat) (w : Nat → Nat)
    (hw : WInv B p w) (hnc : nc = p % WINDOW_SIZE) (hdp : d ≤ p) (hdW : d ≤ WINDOW_SIZE)
    (hld : l ≤ d) (heq : ∀ i, i < l → B.getD (p + i) 0 = B.getD (p - d + i) 0) :
    ((List.range l).map fun i => w (decodeSrcPos nc d i))
      = (List.range l).map fun i => B.getD (p + i) 0 := by
  apply List.map_congr_left
  intro i hi
  rw [List.mem_range] at hi
  rw [decodeSrcPos_read B p d i nc w hw hnc hdp hdW (by omega)]
  exact (heq i (by omega)).symm

theorem range_map_getD (f : Nat → Nat) (l i : Nat) (hi : i < l) :
    ((List.range l).map f).getD i 0 = f i := by
  rw [List.getD_eq_getElem _ _ (by simp; omega)]
  simp

theorem decode_toks_end (B : List Nat) :
    ∀ ts, ∀ f m p nc : Nat, ∀ w : Nat → Nat,
      1 ≤ m → m + ts.length ≤ 8 →
      (∀ i, i < ts.length →
        ((f * 2 ^ (m + i)) % 256 &&& 0x80 = 0 ↔ (ts.getD i noopTok).isCopy = false)) →
      ValidFrom B p ts → WInv B p w → nc = p % WINDOW_SIZE →
      decodeLoop (wireAll ts) (f * 2 ^ (m - 1) % 256) (m - 1) nc w = tokensOut B p ts := by
  intro ts
  induction ts with
  | nil =>
    intro f m p nc w _ _ _ _ _ _
    simp only [wireAll, tokensOut]
    exact decodeLoop_nil _ _ _ _
  | cons t ts2 ih =>
    intro f m p nc w hm1 hm8 hbits hv hw hnc
    have hML63 : MAX_LENGTH = 63 := rfl
    have hlen : (t :: ts2).length = ts2.length + 1 := by simp
    have hm7 : m ≤ 7 := by omega
    have hshift : ((f * 2 ^ (m - 1) % 256) <<< 1) % 256 = f * 2 ^ m % 256 := by
      rw [shift_flag f (m - 1), show m - 1 + 1 = m from by omega]
    cases hv with
    | lit _ b0 _ hp hb hrest =>
      have hbit0 : (f * 2 ^ m) % 256 &&& 0x80 = 0 := by
        have := (hbits 0 (by simp)).mpr (by simp [Token.isCopy])
        rw [Nat.add_zero] at this
        exact this
      have hb2 : ((f * 2 ^ (m - 1) % 256) <<< 1) % 256 &&& 0x80 = 0 := by
        rw [hshift]; exact hbit0
      rw [show wireAll (Token.lit b0 :: ts2) = b0 :: wireAll ts2 from by
        simp [wireAll, wireOf]]
      rw [decodeLoop_step_lit b0 (wireAll ts2) (f * 2 ^ (m - 1) % 256) (m - 1) nc w
        (by omega) hb2]
      rw [hshift]
      subst hb
      have hrec := ih f (m + 1) (p + 1) ((nc + 1) % WINDOW_SIZE) (wupd w nc (B.getD p 0))
        (by omega) (by omega)
        (fun i hi => by
          have := hbits (i + 1) (by simp; omega)
          rw [show m + (i + 1) = m + 1 + i from by omega] at this
          simpa using this)
        hrest (WInv_lit B p nc w hw hnc)
        (by simp only [WSIZE] at hnc ⊢; omega)
      simp only [Nat.add_sub_cancel] at hrec
      rw [show m - 1 + 1 = m from by omega, hrec]
      simp only [tokensOut]
    | copy _ d l _ a1 a2 a3 a4 a5 a6 a7 a8 hrest =>
      have hbit0 : ¬(f * 2 ^ m) % 256 &&& 0x80 = 0 := by
        intro h
        have := (hbits 0 (by simp)).mp (by rw [Nat.add_zero]; exact h)
        simp [Token.isCopy] at this
      have hb2 : ¬((f * 2 ^ (m - 1) % 256) <<< 1) % 256 &&& 0x80 = 0 := by
        rw [hshift]; exact hbit0
      rw [show wireAll (Token.copy d l :: ts2)
          = ((d >>> 8) ||| (l <<< 2)) :: (d &&& 0xFF) :: wireAll ts2 from by
        simp [wireAll, wireOf]]
      rw [decodeLoop_step_copy ((d >>> 8) ||| (l <<< 2)) (d &&& 0xFF) (wireAll ts2)
        (f * 2 ^ (m - 1) % 256) (m - 1) nc w (by omega) hb2]
      rw [decodeWireLength_wire d l (by simp only [WSIZE] at a3; omega)]
      rw [decodeWireOffset_wire d l (by simp only [WSIZE] at a3; omega)]
      rw [staged_spec B p d l nc w hw hnc a2 a3 a6 a8]
      rw [hshift]
      have hwinv2 : WInv B (p + l) (writeStaged w nc
          ((List.range l).map fun i => B.getD (p + i) 0)) := by
        apply WInv_copy B p l nc w _ hw hnc (by simp)
          (by simp only [WSIZE]; omega)
        intro i hi
        exact range_map_getD _ l i hi
      have hrec := ih f (m + 1) (p + l) ((nc + l) % WINDOW_SIZE) _
        (by omega) (by omega)
        (fun i hi => by
          have := hbits (i + 1) (by simp; omega)
          rw [show m + (i + 1) = m + 1 + i from by omega] at this
          simpa using this)
        hrest hwinv2
        (by simp only [WSIZE] at hnc ⊢; omega)
      simp only [Nat.add_sub_cancel] at hrec
      rw [show m - 1 + 1 = m from by omega, hrec]
      simp only [tokensOut]
    | pad _ _ hrest =>
      have hbit0 : ¬(f * 2 ^ m) % 256 &&& 0x80 = 0 := by
        intro h
        have := (hbits 0 (by simp)).mp (by rw [Nat.add_zero]; exact h)
        simp [noopTok, Token.isCopy] at this
      have hb2 : ¬((f * 2 ^ (m - 1) % 256) <<< 1) % 256 &&& 0x80 = 0 := by
        rw [hshift]; exact hbit0
      rw [show wireAll (Token.copy 0 0 :: ts2)
          = ((0 >>> 8) ||| (0 <<< 2)) :: (0 &&& 0xFF) :: wireAll ts2 from by
        simp [wireAll, wireOf]]
      rw [decodeLoop_step_copy ((0 >>> 8) ||| (0 <<< 2)) (0 &&& 0xFF) (wireAll ts2)
        (f * 2 ^ (m - 1) % 256) (m - 1) nc w (by omega) hb2]
      rw [decodeWireLength_wire 0 0 (by omega)]
      rw [decodeWireOffset_wire 0 0 (by omega)]
      simp only [List.range_zero, List.map_nil, List.nil_append]
      rw [show writeStaged w nc [] = w from rfl]
      rw [hshift]
      have hrec := ih f (m + 1) p ((nc + 0) % WINDOW_SIZE) w
        (by omega) (by omega)
        (fun i hi => by
          have := hbits (i + 1) (by simp; omega)
          rw [show m + (i + 1) = m + 1 + i from by omega] at this
          simpa using this)
        hrest hw
        (by simp only [WSIZE] at hnc ⊢; omega)
      simp only [Nat.add_sub_cancel] at hrec
      rw [show m - 1 + 1 = m from by omega, hrec]
      simp only [tokensOut, List.range_zero, List.map_nil, List.nil_append, Nat.add_zero]

theorem decode_toks_full (B : List Nat) :
    ∀ ts, ∀ rest : List Nat, ∀ f m p nc : Nat, ∀ w : Nat → Nat,
      1 ≤ m → m + ts.length = 8 →
      (∀ i, i < ts.length →
        ((f * 2 ^ (m + i)) % 256 &&& 0x80 = 0 ↔ (ts.getD i noopTok).isCopy = false)) →
      ValidFrom B p ts → WInv B p w → nc = p % WINDOW_SIZE →
      ∃ F2 : Nat, ∃ w2 : Nat → Nat,
        decodeLoop (wireAll ts ++ rest) (f * 2 ^ (m - 1) % 256) (m - 1) nc w
          = tokensOut B p ts ++ decodeLoop rest F2 7 ((p + advTs ts) % WINDOW_SIZE) w2
        ∧ WInv B (p + advTs ts) w2 := by
  intro ts
  induction ts with
  | nil =>
    intro rest f m p nc w hm1 hm8 _ _ hw hnc
    simp only [List.length_nil] at hm8
    refine ⟨f * 2 ^ (m - 1) % 256, w, ?_, ?_⟩
    · simp only [wireAll, tokensOut, advTs, List.nil_append, Nat.add_zero]
      rw [hnc, show m - 1 = 7 from by omega]
    · simpa [advTs] using hw
  | cons t ts2 ih =>
    intro rest f m p nc w hm1 hm8 hbits hv hw hnc
    have hML63 : MAX_LENGTH = 63 := rfl
    have hlen : (t :: ts2).length = ts2.length + 1 := by simp
    have hm7 : m ≤ 7 := by omega
    have hshift : ((f * 2 ^ (m - 1) % 256) <<< 1) % 256 = f * 2 ^ m % 256 := by
      rw [shift_flag f (m - 1), show m - 1 + 1 = m from by omega]
    cases hv with
    | lit _ b0 _ hp hb hrest =>
      have hbit0 : (f * 2 ^ m) % 256 &&& 0x80 = 0 := by
        have := (hbits 0 (by simp)).mpr (by simp [Token.isCopy])
        rw [Nat.add_zero] at this
        exact this
      have hb2 : ((f * 2 ^ (m - 1) % 256) <<< 1) % 256 &&& 0x80 = 0 := by
        rw [hshift]; exact hbit0
      rw [show wireAll (Token.lit b0 :: ts2) ++ rest = b0 :: (wireAll ts2 ++ rest) from by
        simp [wireAll, wireOf]]
      rw [decodeLoop_step_lit b0 (wireAll ts2 ++ rest) (f * 2 ^ (m - 1) % 256) (m - 1)
        nc w (by omega) hb2]
      rw [hshift]
      subst hb
      obtain ⟨F2, w2, heq, hwi⟩ := ih rest f (m + 1) (p + 1) ((nc + 1) % WINDOW_SIZE)
        (wupd w nc (B.getD p 0)) (by omega) (by omega)
        (fun i hi => by
          have := hbits (i + 1) (by simp; omega)
          rw [show m + (i + 1) = m + 1 + i from by omega] at this
          simpa using this)
        hrest (WInv_lit B p nc w hw hnc)
        (by simp only [WSIZE] at hnc ⊢; omega)
      simp only [Nat.add_sub_cancel] at heq
      refine ⟨F2, w2, ?_, ?_⟩
      · rw [show m - 1 + 1 = m from by omega, heq]
        simp only [tokensOut, advTs, Token.adv]
        rw [show p + 1 + advTs ts2 = p + (1 + advTs ts2) from by omega]
        rfl
      · simp only [advTs, Token.adv]
        rw [show p + (1 + advTs ts2) = p + 1 + advTs ts2 from by omega]
        exact hwi
    | copy _ d l _ a1 a2 a3 a4 a5 a6 a7 a8 hrest =>
      have hbit0 : ¬(f * 2 ^ m) % 256 &&& 0x80 = 0 := by
        intro h
        have := (hbits 0 (by simp)).mp (by rw [Nat.add_zero]; exact h)
        simp [Token.isCopy] at this
      have hb2 : ¬((f * 2 ^ (m - 1) % 256) <<< 1) % 256 &&& 0x80 = 0 := by
        rw [hshift]; exact hbit0
      rw [show wireAll (Token.copy d l :: ts2) ++ rest
          = ((d >>> 8) ||| (l <<< 2)) :: (d &&& 0xFF) :: (wireAll ts2 ++ rest) from by
        simp [wireAll, wireOf]]
      rw [decodeLoop_step_copy ((d >>> 8) ||| (l <<< 2)) (d &&& 0xFF)
        (wireAll ts2 ++ rest) (f * 2 ^ (m - 1) % 256) (m - 1) nc w (by omega) hb2]
      rw [decodeWireLength_wire d l (by simp only [WSIZE] at a3; omega)]
      rw [decodeWireOffset_wire d l (by simp only [WSIZE] at a3; omega)]
      rw [staged_spec B p d l nc w hw hnc a2 a3 a6 a8]
      rw [hshift]
      have hwinv2 : WInv B (p + l) (writeStaged w nc
          ((List.range l).map fun i => B.getD (p + i) 0)) := by
        apply WInv_copy B p l nc w _ hw hnc (by simp)
          (by simp only [WSIZE]; omega)
        intro i hi
        exact range_map_getD _ l i hi
      obtain ⟨F2, w2, heq, hwi⟩ := ih rest f (m + 1) (p + l) ((nc + l) % WINDOW_SIZE) _
        (by omega) (by omega)
        (fun i hi => by
          have := hbits (i + 1) (by simp; omega)
          rw [show m + (i + 1) = m + 1 + i from by omega] at this
          simpa using this)
        hrest hwinv2
        (by simp only [WSIZE] at hnc ⊢; omega)
      simp only [Nat.add_sub_cancel] at heq
      refine ⟨F2, w2, ?_, ?_⟩
      · rw [show m - 1 + 1 = m from by omega, heq]
        simp only [tokensOut, advTs, Token.adv]
        rw [show p + l + advTs ts2 = p + (l + advTs ts2) from by omega]
        rw [List.append_assoc]
      · simp only [advTs, Token.adv]
        rw [show p + (l + advTs ts2) = p + l + advTs ts2 from by omega]
        exact hwi
    | pad _ _ hrest =>
      have hbit0 : ¬(f * 2 ^ m) % 256 &&& 0x80 = 0 := by
        intro h
        have := (hbits 0 (by simp)).mp (by rw [Nat.add_zero]; exact h)
        simp [noopTok, Token.isCopy] at this
      have hb2 : ¬((f * 2 ^ (m - 1) % 256) <<< 1) % 256 &&& 0x80 = 0 := by
        rw [hshift]; exact hbit0
      rw [show wireAll (Token.copy 0 0 :: ts2) ++ rest
          = ((0 >>> 8) ||| (0 <<< 2)) :: (0 &&& 0xFF) :: (wireAll ts2 ++ rest) from by
        simp [wireAll, wireOf]]
      rw [decodeLoop_step_copy ((0 >>> 8) ||| (0 <<< 2)) (0 &&& 0xFF)
        (wireAll ts2 ++ rest) (f * 2 ^ (m - 1) % 256) (m - 1) nc w (by omega) hb2]
      rw [decodeWireLength_wire 0 0 (by omega)]
      rw [decodeWireOffset_wire 0 0 (by omega)]
      simp only [List.range_zero, List.map_nil, List.nil_append]
      rw [show writeStaged w nc [] = w from rfl]
      rw [hshift]
      obtain ⟨F2, w2, heq, hwi⟩ := ih rest f (m + 1) p ((nc + 0) % WINDOW_SIZE) w
        (by omega) (by omega)
        (fun i hi => by
          have := hbits (i + 1) (by simp; omega)
          rw [show m + (i + 1) = m + 1 + i from by omega] at this
          simpa using this)
        hrest hw
        (by simp only [WSIZE] at hnc ⊢; omega)
      simp only [Nat.add_sub_cancel] at heq
      refine ⟨F2, w2, ?_, ?_⟩
      · rw [show m - 1 + 1 = m from by omega, heq]
        simp only [tokensOut, advTs, Token.adv, List.range_zero, List.map_nil,
          List.nil_append, Nat.add_zero]
        rw [show p + (0 + advTs ts2) = p + advTs ts2 from by omega]
      · simp only [advTs, Token.adv]
        rw [show p + (0 + advTs ts2) = p + advTs ts2 from by omega]
        rw [show p + advTs ts2 = p + 0 + advTs ts2 from by omega]
        exact hwi

theorem decode_group_end (B : List Nat) (t : Token) (g2 : List Token)
    (p nc F : Nat) (w : Nat → Nat) (hg8 : (t :: g2).length ≤ 8)
    (hv : ValidFrom B p (t :: g2)) (hw : WInv B p w) (hnc : nc = p % WINDOW_SIZE) :
    decodeLoop (flagByteOf (t :: g2) :: wireAll (t :: g2)) F 7 nc w
      = tokensOut B p (t :: g2) := by
  have hML63 : MAX_LENGTH = 63 := rfl
  have hbt := flagByte_test (t :: g2) 0 hg8 (by simp)
  rw [pow_zero, Nat.mul_one] at hbt
  have hbits2 : ∀ i, i < g2.length →
      ((flagByteOf (t :: g2) * 2 ^ (1 + i)) % 256 &&& 0x80 = 0
        ↔ (g2.getD i noopTok).isCopy = false) := by
    intro i hi
    have := flagByte_test (t :: g2) (i + 1) hg8 (by simp; omega)
    rw [show (1 : Nat) + i = i + 1 from by omega]
    simpa using this
  cases hv with
  | lit _ b0 _ hp hb hrest =>
    have hbit0 : flagByteOf (Token.lit b0 :: g2) % 256 &&& 0x80 = 0 :=
      hbt.mpr (by simp [Token.isCopy])
    rw [show wireAll (Token.lit b0 :: g2) = b0 :: wireAll g2 from by
      simp [wireAll, wireOf]]
    rw [decodeLoop_flag_lit (flagByteOf (Token.lit b0 :: g2)) b0 (wireAll g2) F nc w
      (by rw [and255_eq_mod]; exact hbit0)]
    rw [and255_eq_mod]
    subst hb
    have htoks := decode_toks_end B g2 (flagByteOf (Token.lit (B.getD p 0) :: g2)) 1
      (p + 1) ((nc + 1) % WINDOW_SIZE) (wupd w nc (B.getD p 0)) (by omega)
      (by simp at hg8 ⊢; omega) hbits2 hrest (WInv_lit B p nc w hw hnc)
      (by simp only [WSIZE] at hnc ⊢; omega)
    simp only [Nat.sub_self, pow_zero, Nat.mul_one] at htoks
    rw [htoks]
    simp only [tokensOut]
  | copy _ d l _ a1 a2 a3 a4 a5 a6 a7 a8 hrest =>
    have hbit0 : ¬flagByteOf (Token.copy d l :: g2) % 256 &&& 0x80 = 0 := by
      intro h
      have := hbt.mp h
      simp [Token.isCopy] at this
    rw [show wireAll (Token.copy d l :: g2)
        = ((d >>> 8) ||| (l <<< 2)) :: (d &&& 0xFF) :: wireAll g2 from by
      simp [wireAll, wireOf]]
    rw [decodeLoop_flag_copy (flagByteOf (Token.copy d l :: g2))
      ((d >>> 8) ||| (l <<< 2)) (d &&& 0xFF) (wireAll g2) F nc w
      (by rw [and255_eq_mod]; exact hbit0)]
    rw [decodeWireLength_wire d l (by simp only [WSIZE] at a3; omega)]
    rw [decodeWireOffset_wire d l (by simp only [WSIZE] at a3; omega)]
    rw [staged_spec B p d l nc w hw hnc a2 a3 a6 a8]
    rw [and255_eq_mod]
    have hwinv2 : WInv B (p + l) (writeStaged w nc
        ((List.range l).map fun i => B.getD (p + i) 0)) := by
      apply WInv_copy B p l nc w _ hw hnc (by simp)
        (by simp only [WSIZE]; omega)
      intro i hi
      exact range_map_getD _ l i hi
    have htoks := decode_toks_end B g2 (flagByteOf (Token.copy d l :: g2)) 1
      (p + l) ((nc + l) % WINDOW_SIZE) _ (by omega)
      (by simp at hg8 ⊢; omega) hbits2 hrest hwinv2
      (by simp only [WSIZE] at hnc ⊢; omega)
    simp only [Nat.sub_self, pow_zero, Nat.mul_one] at htoks
    rw [htoks]
    simp only [tokensOut]
  | pad _ _ hrest =>
    have hbit0 : ¬flagByteOf (Token.copy 0 0 :: g2) % 256 &&& 0x80 = 0 := by
      intro h
      have := hbt.mp h
      simp [noopTok, Token.isCopy] at this
    rw [show wireAll (Token.copy 0 0 :: g2)
        = ((0 >>> 8) ||| (0 <<< 2)) :: (0 &&& 0xFF) :: wireAll g2 from by
      simp [wireAll, wireOf]]
    rw [decodeLoop_flag_copy (flagByteOf (Token.copy 0 0 :: g2))
      ((0 >>> 8) ||| (0 <<< 2)) (0 &&& 0xFF) (wireAll g2) F nc w
      (by rw [and255_eq_mod]; exact hbit0)]
    rw [decodeWireLength_wire 0 0 (by omega)]
    rw [decodeWireOffset_wire 0 0 (by omega)]
    simp only [List.range_zero, List.map_nil, List.nil_append]
    rw [show writeStaged w nc [] = w from rfl]
    rw [and255_eq_mod]
    have htoks := decode_toks_end B g2 (flagByteOf (Token.copy 0 0 :: g2)) 1
      p ((nc + 0) % WINDOW_SIZE) w (by omega)
      (by simp at hg8 ⊢; omega) hbits2 hrest hw
      (by simp only [WSIZE] at hnc ⊢; omega)
    simp only [Nat.sub_self, pow_zero, Nat.mul_one] at htoks
    rw [htoks]
    simp only [tokensOut, List.range_zero, List.map_nil, List.nil_append, Nat.add_zero]

theorem decode_group_full (B : List Nat) (t : Token) (g2 : List Token) (rest : List Nat)
    (p nc F : Nat) (w : Nat → Nat) (hg8 : (t :: g2).length = 8)
    (hv : ValidFrom B p (t :: g2)) (hw : WInv B p w) (hnc : nc = p % WINDOW_SIZE) :
    ∃ F2 : Nat, ∃ w2 : Nat → Nat,
      decodeLoop ((flagByteOf (t :: g2) :: wireAll (t :: g2)) ++ rest) F 7 nc w
        = tokensOut B p (t :: g2)
          ++ decodeLoop rest F2 7 ((p + advTs (t :: g2)) % WINDOW_SIZE) w2
      ∧ WInv B (p + advTs (t :: g2)) w2 := by
  have hML63 : MAX_LENGTH = 63 := rfl
  have hbt := flagByte_test (t :: g2) 0 (by omega) (by simp)
  rw [pow_zero, Nat.mul_one] at hbt
  have hbits2 : ∀ i, i < g2.length →
      ((flagByteOf (t :: g2) * 2 ^ (1 + i)) % 256 &&& 0x80 = 0
        ↔ (g2.getD i noopTok).isCopy = false) := by
    intro i hi
    have := flagByte_test (t :: g2) (i + 1) (by omega) (by simp; omega)
    rw [show (1 : Nat) + i = i + 1 from by omega]
    simpa using this
  cases hv with
  | lit _ b0 _ hp hb hrest =>
    have hbit0 : flagByteOf (Token.lit b0 :: g2) % 256 &&& 0x80 = 0 :=
      hbt.mpr (by simp [Token.isCopy])
    rw [show (flagByteOf (Token.lit b0 :: g2) :: wireAll (Token.lit b0 :: g2)) ++ rest
        = flagByteOf (Token.lit b0 :: g2) :: b0 :: (wireAll g2 ++ rest) from by
      simp [wireAll, wireOf]]
    rw [decodeLoop_flag_lit (flagByteOf (Token.lit b0 :: g2)) b0 (wireAll g2 ++ rest)
      F nc w (by rw [and255_eq_mod]; exact hbit0)]
    rw [and255_eq_mod]
    subst hb
    obtain ⟨F2, w2, heq, hwi⟩ := decode_toks_full B g2 rest
      (flagByteOf (Token.lit (B.getD p 0) :: g2)) 1 (p + 1) ((nc + 1) % WINDOW_SIZE)
      (wupd w nc (B.getD p 0)) (by omega) (by simp at hg8 ⊢; omega) hbits2 hrest
      (WInv_lit B p nc w hw hnc) (by simp only [WSIZE] at hnc ⊢; omega)
    simp only [Nat.sub_self, pow_zero, Nat.mul_one] at heq
    refine ⟨F2, w2, ?_, ?_⟩
    · rw [heq]
      simp only [tokensOut, advTs, Token.adv]
      rw [show p + 1 + advTs g2 = p + (1 + advTs g2) from by omega]
      rfl
    · simp only [advTs, Token.adv]
      rw [show p + (1 + advTs g2) = p + 1 + advTs g2 from by omega]
      exact hwi
  | copy _ d l _ a1 a2 a3 a4 a5 a6 a7 a8 hrest =>
    have hbit0 : ¬flagByteOf (Token.copy d l :: g2) % 256 &&& 0x80 = 0 := by
      intro h
      have := hbt.mp h
      simp [Token.isCopy] at this
    rw [show (flagByteOf (Token.copy d l :: g2) :: wireAll (Token.copy d l :: g2)) ++ rest
        = flagByteOf (Token.copy d l :: g2)
            :: ((d >>> 8) ||| (l <<< 2)) :: (d &&& 0xFF) :: (wireAll g2 ++ rest) from by
      simp [wireAll, wireOf]]
    rw [decodeLoop_flag_copy (flagByteOf (Token.copy d l :: g2))
      ((d >>> 8) ||| (l <<< 2)) (d &&& 0xFF) (wireAll g2 ++ rest) F nc w
      (by rw [and255_eq_mod]; exact hbit0)]
    rw [decodeWireLength_wire d l (by simp only [WSIZE] at a3; omega)]
    rw [decodeWireOffset_wire d l (by simp only [WSIZE] at a3; omega)]
    rw [staged_spec B p d l nc w hw hnc a2 a3 a6 a8]
    rw [and255_eq_mod]
    have hwinv2 : WInv B (p + l) (writeStaged w nc
        ((List.range l).map fun i => B.getD (p + i) 0)) := by
      apply WInv_copy B p l nc w _ hw hnc (by simp)
        (by simp only [WSIZE]; omega)
      intro i hi
      exact range_map_getD _ l i hi
    obtain ⟨F2, w2, heq, hwi⟩ := decode_toks_full B g2 rest
      (flagByteOf (Token.copy d l :: g2)) 1 (p + l) ((nc + l) % WINDOW_SIZE) _
      (by omega) (by simp at hg8 ⊢; omega) hbits2 hrest hwinv2
      (by simp only [WSIZE] at hnc ⊢; omega)
    simp only [Nat.sub_self, pow_zero, Nat.mul_one] at heq
    refine ⟨F2, w2, ?_, ?_⟩
    · rw [heq]
      simp only [tokensOut, advTs, Token.adv]
      rw [show p + l + advTs g2 = p + (l + advTs g2) from by omega]
      rw [List.append_assoc]
    · simp only [advTs, Token.adv]
      rw [show p + (l + advTs g2) = p + l + advTs g2 from by omega]
      exact hwi
  | pad _ _ hrest =>
    have hbit0 : ¬flagByteOf (Token.copy 0 0 :: g2) % 256 &&& 0x80 = 0 := by
      intro h
      have := hbt.mp h
      simp [noopTok, Token.isCopy] at this
    rw [show (flagByteOf (Token.copy 0 0 :: g2) :: wireAll (Token.copy 0 0 :: g2)) ++ rest
        = flagByteOf (Token.copy 0 0 :: g2)
            :: ((0 >>> 8) ||| (0 <<< 2)) :: (0 &&& 0xFF) :: (wireAll g2 ++ rest) from by
      simp [wireAll, wireOf]]
    rw [decodeLoop_flag_copy (flagByteOf (Token.copy 0 0 :: g2))
      ((0 >>> 8) ||| (0 <<< 2)) (0 &&& 0xFF) (wireAll g2 ++ rest) F nc w
      (by rw [and255_eq_mod]; exact hbit0)]
    rw [decodeWireLength_wire 0 0 (by omega)]
    rw [decodeWireOffset_wire 0 0 (by omega)]
    simp only [List.range_zero, List.map_nil, List.nil_append]
    rw [show writeStaged w nc [] = w from rfl]
    rw [and255_eq_mod]
    obtain ⟨F2, w2, heq, hwi⟩ := decode_toks_full B g2 rest
      (flagByteOf (Token.copy 0 0 :: g2)) 1 p ((nc + 0) % WINDOW_SIZE) w
      (by omega) (by simp at hg8 ⊢; omega) hbits2 hrest hw
      (by simp only [WSIZE] at hnc ⊢; omega)
    simp only [Nat.sub_self, pow_zero, Nat.mul_one] at heq
    refine ⟨F2, w2, ?_, ?_⟩
    · rw [heq]
      simp only [tokensOut, advTs, Token.adv, List.range_zero, List.map_nil,
        List.nil_append, Nat.add_zero]
      rw [show p + (0 + advTs g2) = p + advTs g2 from by omega]
    · simp only [advTs, Token.adv]
      rw [show p + (0 + advTs g2) = p + advTs g2 from by omega]
      exact hwi

/-!
### Decoding a whole framed stream
-/

theorem decode_frameFrag (B : List Nat) (P : List Token) (p nc F : Nat) (w : Nat → Nat)
    (hP : P.length ≤ 8) (hv : ValidFrom B p P) (hw : WInv B p w)
    (hnc : nc = p % WINDOW_SIZE) :
    decodeLoop (frameFrag P) F 7 nc w = tokensOut B p P := by
  match P with
  | [] =>
    rw [show frameFrag [] = [] from rfl]
    rw [decodeLoop_nil]
    simp only [tokensOut]
  | t :: g2 =>
    rw [show frameFrag (t :: g2) = flagByteOf (t :: g2) :: wireAll (t :: g2) from by
      simp [frameFrag]]
    exact decode_group_end B t g2 p nc F w hP hv hw hnc

theorem decode_frameFull (B : List Nat) :
    ∀ n ts, ts.length ≤ n → 8 ∣ ts.length →
      ∀ rest : List Nat, ∀ p nc F : Nat, ∀ w : Nat → Nat,
      ValidFrom B p ts → WInv B p w → nc = p % WINDOW_SIZE →
      ∃ F2 : Nat, ∃ w2 : Nat → Nat,
        decodeLoop (frameFullBytes ts ++ rest) F 7 nc w
          = tokensOut B p ts ++ decodeLoop rest F2 7 ((p + advTs ts) % WINDOW_SIZE) w2
        ∧ WInv B (p + advTs ts) w2 := by
  intro n
  induction n with
  | zero =>
    intro ts hlen _ rest p nc F w hv hw hnc
    have hts : ts = [] := List.eq_nil_of_length_eq_zero (by omega)
    subst hts
    refine ⟨F, w, ?_, ?_⟩
    · rw [show frameFullBytes [] = [] from by rw [frameFullBytes]; simp]
      simp only [List.nil_append, tokensOut, advTs, Nat.add_zero]
      rw [hnc]
    · simpa [advTs] using hw
  | succ n ih =>
    intro ts hlen hdvd rest p nc F w hv hw hnc
    by_cases h8 : 8 ≤ ts.length
    · have h80 : (ts.take 8).length = 8 := by simp [List.length_take]; omega
      rcases hg : ts.take 8 with _ | ⟨t, g2⟩
      · rw [hg] at h80; simp at h80
      have hts : ts = (t :: g2) ++ ts.drop 8 := by
        conv_lhs => rw [← List.take_append_drop 8 ts]
        rw [hg]
      have hlg : (t :: g2).length = 8 := by rw [← hg]; exact h80
      obtain ⟨hv1, hv2⟩ := ValidFrom_append_inv B (t :: g2) (ts.drop 8) p
        (by rw [← hts]; exact hv)
      have hffb : frameFullBytes ts
          = (flagByteOf (t :: g2) :: wireAll (t :: g2)) ++ frameFullBytes (ts.drop 8) := by
        rw [frameFullBytes, dif_pos h8, hg]
      rw [hffb, List.append_assoc]
      obtain ⟨F2, w2, heq, hwi⟩ := decode_group_full B t g2
        (frameFullBytes (ts.drop 8) ++ rest) p nc F w hlg hv1 hw hnc
      rw [heq]
      obtain ⟨F3, w3, heq2, hwi2⟩ := ih (ts.drop 8) (by simp; omega)
        (by obtain ⟨k, hk⟩ := hdvd; exact ⟨k - 1, by simp; omega⟩) rest
        (p + advTs (t :: g2)) ((p + advTs (t :: g2)) % WINDOW_SIZE) F2 w2 hv2 hwi rfl
      rw [heq2]
      refine ⟨F3, w3, ?_, ?_⟩
      · conv_rhs => rw [hts]
        rw [tokensOut_append B (t :: g2) (ts.drop 8) p, advTs_append, List.append_assoc]
        rw [show p + (advTs (t :: g2) + advTs (ts.drop 8))
            = p + advTs (t :: g2) + advTs (ts.drop 8) from by omega]
      · rw [hts, advTs_append]
        rw [show p + (advTs (t :: g2) + advTs (ts.drop 8))
            = p + advTs (t :: g2) + advTs (ts.drop 8) from by omega]
        exact hwi2
    · have hts : ts = [] := by
        obtain ⟨k, hk⟩ := hdvd
        exact List.eq_nil_of_length_eq_zero (by omega)
      subst hts
      refine ⟨F, w, ?_, ?_⟩
      · rw [show frameFullBytes [] = [] from by rw [frameFullBytes]; simp]
        simp only [List.nil_append, tokensOut, advTs, Nat.add_zero]
        rw [hnc]
      · simpa [advTs] using hw

/-!
### The encoder main loop produces framed groups
-/

theorem wireAll_append (ts1 ts2 : List Token) :
    wireAll (ts1 ++ ts2) = wireAll ts1 ++ wireAll ts2 := by
  induction ts1 with
  | nil => simp [wireAll]
  | cons t ts ih =>
    rw [show (t :: ts) ++ ts2 = t :: (ts ++ ts2) from rfl]
    simp only [wireAll]
    rw [ih, List.append_assoc]

theorem lastFrag_small (P : List Token) (h : P.length < 8) : lastFrag P = P := by
  unfold lastFrag
  rw [Nat.div_eq_of_lt h]
  simp

theorem frameFullBytes_small (P : List Token) (h : P.length < 8) :
    frameFullBytes P = [] := by
  rw [frameFullBytes, dif_neg (by omega)]

theorem lastFrag_cons8 (Q S : List Token) (h : Q.length = 8) :
    lastFrag (Q ++ S) = lastFrag S := by
  unfold lastFrag
  rw [List.length_append, h]
  rw [show (8 + S.length) / 8 * 8 = 8 + S.length / 8 * 8 from by omega]
  rw [← List.drop_drop, List.drop_left' h]

theorem frameFullBytes_cons8 (Q S : List Token) (h : Q.length = 8) :
    frameFullBytes (Q ++ S) = (flagByteOf Q :: wireAll Q) ++ frameFullBytes S := by
  rw [frameFullBytes, dif_pos (by simp [h])]
  rw [List.take_left' h, List.drop_left' h]

theorem flagBits_snoc (P : List Token) (t : Token) :
    flagBitsAux (P ++ [t]) 0 = flagBitsAux P 0 + kindBit t * 2 ^ (7 - P.length) := by
  have := flagBitsAux_append P t 0
  simpa using this

theorem flags_or_bit (P : List Token) (t : Token) (h7 : P.length ≤ 7)
    (hc : t.isCopy = true) :
    flagBitsAux P 0 ||| 2 ^ (7 - P.length) = flagBitsAux (P ++ [t]) 0 := by
  rw [flagBits_snoc]
  rw [show kindBit t = 1 from by simp [kindBit, hc]]
  rw [Nat.one_mul]
  apply or_two_pow_eq_add
  have hdvd := flagBitsAux_dvd P 0 (by omega)
  rw [show (7 : Nat) - P.length + 1 = 8 - (0 + P.length) from by omega]
  obtain ⟨c, hc2⟩ := hdvd
  simp [hc2, Nat.mul_mod_right]

theorem flags_lit_bit (P : List Token) (t : Token) (hc : t.isCopy = false) :
    flagBitsAux (P ++ [t]) 0 = flagBitsAux P 0 := by
  rw [flagBits_snoc]
  simp [kindBit, hc]

theorem flagPos_shift (k : Nat) (h : k ≤ 6) :
    (2 : Nat) ^ (7 - k) >>> 1 = 2 ^ (7 - (k + 1)) := by
  rw [shiftRight1_eq]
  rw [show (7 : Nat) - k = (7 - (k + 1)) + 1 from by omega, pow_succ]
  exact Nat.mul_div_cancel _ (by norm_num)

theorem flagPos_one_iff (k : Nat) (hk : k ≤ 7) : (2 : Nat) ^ (7 - k) = 1 ↔ k = 7 := by
  constructor
  · intro h
    by_contra hne
    have h2 : 2 ≤ 2 ^ (7 - k) := by
      calc (2 : Nat) = 2 ^ 1 := rfl
        _ ≤ 2 ^ (7 - k) := Nat.pow_le_pow_right (by norm_num) (by omega)
    omega
  · intro h
    subst h
    rfl

theorem encodeLoop_spec (B : List Nat) :
    ∀ fuel pos : Nat, ∀ P : List Token, ∀ out : List Nat,
      B.length - pos ≤ fuel → P.length ≤ 7 →
      encodeLoop B fuel pos (flagBitsAux P 0) (2 ^ (7 - P.length)) (wireAll P) out
        = (flagBitsAux (lastFrag (P ++ tokenizeFrom B fuel pos)) 0,
           2 ^ (7 - (lastFrag (P ++ tokenizeFrom B fuel pos)).length),
           wireAll (lastFrag (P ++ tokenizeFrom B fuel pos)),
           out ++ frameFullBytes (P ++ tokenizeFrom B fuel pos)) := by
  intro fuel
  induction fuel with
  | zero =>
    intro pos P out hf h7
    simp only [encodeLoop, tokenizeFrom, List.append_nil]
    rw [lastFrag_small P (by omega), frameFullBytes_small P (by omega)]
    simp
  | succ fuel ih =>
    intro pos P out hf h7
    simp only [encodeLoop, tokenizeFrom]
    by_cases hp : pos < B.length
    · rw [if_pos hp, if_pos hp]
      by_cases hm : 3 ≤ (findBest B pos).1 ∧ 3 ≤ (findBest B pos).2
      · rw [if_pos hm, if_pos hm]
        by_cases h1 : (2 : Nat) ^ (7 - P.length) = 1
        · rw [if_pos h1]
          have h7e : P.length = 7 := (flagPos_one_iff P.length h7).mp h1
          have hsnoc : (P ++ [Token.copy (findBest B pos).2 (findBest B pos).1]).length = 8 := by
            simp [h7e]
          have hih := ih (pos + (findBest B pos).1) [] (out ++
            (flagBitsAux P 0 ||| 2 ^ (7 - P.length)) ::
              (wireAll P ++ [((findBest B pos).2 >>> 8) ||| ((findBest B pos).1 <<< 2),
                (findBest B pos).2 &&& 0xFF]))
            (by omega) (by simp)
          simp only [flagBitsAux, List.nil_append, List.length_nil, Nat.sub_zero,
            wireAll] at hih
          rw [show (2 : Nat) ^ 7 = 128 from rfl] at hih
          dsimp only
          rw [hih]
          rw [List.append_cons P (Token.copy (findBest B pos).2 (findBest B pos).1)
            (tokenizeFrom B fuel (pos + (findBest B pos).1))]
          rw [lastFrag_cons8 _ _ hsnoc, frameFullBytes_cons8 _ _ hsnoc]
          unfold flagByteOf
          rw [flags_or_bit P (Token.copy (findBest B pos).2 (findBest B pos).1) h7
            (by simp [Token.isCopy])]
          rw [show wireAll (P ++ [Token.copy (findBest B pos).2 (findBest B pos).1])
              = wireAll P ++ [((findBest B pos).2 >>> 8) ||| ((findBest B pos).1 <<< 2),
                (findBest B pos).2 &&& 0xFF] from by
            rw [wireAll_append]; simp [wireAll, wireOf]]
          rw [List.append_assoc]
        · rw [if_neg h1]
          have h7l : P.length ≤ 6 := by
            rcases Nat.lt_or_ge P.length 7 with h | h
            · omega
            · exfalso; exact h1 ((flagPos_one_iff P.length h7).mpr (by omega))
          have hih := ih (pos + (findBest B pos).1)
            (P ++ [Token.copy (findBest B pos).2 (findBest B pos).1]) out
            (by omega) (by simp; omega)
          rw [flags_or_bit P (Token.copy (findBest B pos).2 (findBest B pos).1) h7
            (by simp [Token.isCopy])]
          rw [flagPos_shift P.length h7l]
          rw [show wireAll P ++ [((findBest B pos).2 >>> 8) ||| ((findBest B pos).1 <<< 2),
                (findBest B pos).2 &&& 0xFF]
              = wireAll (P ++ [Token.copy (findBest B pos).2 (findBest B pos).1]) from by
            rw [wireAll_append]; simp [wireAll, wireOf]]
          rw [show P.length + 1
              = (P ++ [Token.copy (findBest B pos).2 (findBest B pos).1]).length from by
            simp]
          rw [hih]
          rw [List.append_cons P (Token.copy (findBest B pos).2 (findBest B pos).1)
            (tokenizeFrom B fuel (pos + (findBest B pos).1))]
      · rw [if_neg hm, if_neg hm]
        by_cases h1 : (2 : Nat) ^ (7 - P.length) = 1
        · rw [if_pos h1]
          have h7e : P.length = 7 := (flagPos_one_iff P.length h7).mp h1
          have hsnoc : (P ++ [Token.lit (B.getD pos 0)]).length = 8 := by simp [h7e]
          have hih := ih (pos + 1) [] (out ++
            flagBitsAux P 0 :: (wireAll P ++ [B.getD pos 0])) (by omega) (by simp)
          simp only [flagBitsAux, List.nil_append, List.length_nil, Nat.sub_zero,
            wireAll] at hih
          rw [show (2 : Nat) ^ 7 = 128 from rfl] at hih
          dsimp only
          rw [hih]
          rw [List.append_cons P (Token.lit (B.getD pos 0)) (tokenizeFrom B fuel (pos + 1))]
          rw [lastFrag_cons8 _ _ hsnoc, frameFullBytes_cons8 _ _ hsnoc]
          rw [show flagBitsAux P 0 = flagByteOf (P ++ [Token.lit (B.getD pos 0)]) from by
            unfold flagByteOf
            exact (flags_lit_bit P _ (by simp [Token.isCopy])).symm]
          rw [show wireAll P ++ [B.getD pos 0]
              = wireAll (P ++ [Token.lit (B.getD pos 0)]) from by
            rw [wireAll_append]; simp [wireAll, wireOf]]
          rw [List.append_assoc]
        · rw [if_neg h1]
          have h7l : P.length ≤ 6 := by
            rcases Nat.lt_or_ge P.length 7 with h | h
            · omega
            · exfalso; exact h1 ((flagPos_one_iff P.length h7).mpr (by omega))
          have hih := ih (pos + 1) (P ++ [Token.lit (B.getD pos 0)]) out
            (by omega) (by simp; omega)
          rw [flagPos_shift P.length h7l]
          rw [show flagBitsAux P 0 = flagBitsAux (P ++ [Token.lit (B.getD pos 0)]) 0 from
            (flags_lit_bit P _ (by simp [Token.isCopy])).symm]
          rw [show wireAll P ++ [B.getD pos 0]
              = wireAll (P ++ [Token.lit (B.getD pos 0)]) from by
            rw [wireAll_append]; simp [wireAll, wireOf]]
          rw [show P.length + 1 = (P ++ [Token.lit (B.getD pos 0)]).length from by simp]
          rw [hih]
          rw [List.append_cons P (Token.lit (B.getD pos 0)) (tokenizeFrom B fuel (pos + 1))]
    · rw [if_neg hp, if_neg hp]
      simp only [List.append_nil]
      rw [lastFrag_small P (by omega), frameFullBytes_small P (by omega)]
      simp

/-!
### `EncodeLZSS` assembled from the framed token stream
-/

theorem encodeLoop_run (B : List Nat) :
    encodeLoop B B.length 0 0 128 [] []
      = (flagByteOf (lastFrag (tokenize B)),
         2 ^ (7 - (lastFrag (tokenize B)).length),
         wireAll (lastFrag (tokenize B)),
         frameFullBytes (tokenize B)) := by
  have h := encodeLoop_spec B B.length 0 [] [] (by omega) (by simp)
  simp only [flagBitsAux, List.length_nil, Nat.sub_zero, wireAll, List.nil_append] at h
  rw [show (2 : Nat) ^ 7 = 128 from rfl] at h
  simp only [tokenize, flagByteOf]
  exact h

theorem wireAll_eq_nil_iff (ts : List Token) : wireAll ts = [] ↔ ts = [] := by
  cases ts with
  | nil => simp [wireAll]
  | cons t ts => cases t <;> simp [wireAll, wireOf]

theorem lastFrag_length (ts : List Token) : (lastFrag ts).length = ts.length % 8 := by
  unfold lastFrag
  rw [List.length_drop]
  omega

theorem lastFrag_lt8 (ts : List Token) : (lastFrag ts).length < 8 := by
  rw [lastFrag_length]
  omega

theorem tokenize_split (ts : List Token) :
    ts = ts.take (ts.length / 8 * 8) ++ lastFrag ts := by
  rw [lastFrag]
  exact (List.take_append_drop _ ts).symm

theorem takeFull_length (ts : List Token) :
    (ts.take (ts.length / 8 * 8)).length = ts.length / 8 * 8 := by
  rw [List.length_take]
  omega

theorem takeFull_dvd (ts : List Token) : 8 ∣ (ts.take (ts.length / 8 * 8)).length := by
  rw [takeFull_length]
  exact ⟨ts.length / 8, by omega⟩

theorem frameFullBytes_append8 :
    ∀ n (Q S : List Token), Q.length ≤ n → 8 ∣ Q.length →
      frameFullBytes (Q ++ S) = frameFullBytes Q ++ frameFullBytes S := by
  intro n
  induction n with
  | zero =>
    intro Q S hl _
    have hQ : Q = [] := List.eq_nil_of_length_eq_zero (by omega)
    subst hQ
    rw [frameFullBytes_small [] (by simp)]
    simp
  | succ n ih =>
    intro Q S hl hdvd
    by_cases h8 : 8 ≤ Q.length
    · have h80 : (Q.take 8).length = 8 := by rw [List.length_take]; omega
      have hQ : Q = Q.take 8 ++ Q.drop 8 := (List.take_append_drop 8 Q).symm
      rw [hQ, List.append_assoc]
      rw [frameFullBytes_cons8 _ _ h80, frameFullBytes_cons8 _ _ h80]
      rw [ih (Q.drop 8) S (by rw [List.length_drop]; omega)
        (by rw [List.length_drop]; obtain ⟨c, hc⟩ := hdvd; exact ⟨c - 1, by omega⟩)]
      rw [List.append_assoc]
    · have hQ : Q = [] := by
        obtain ⟨c, hc⟩ := hdvd
        exact List.eq_nil_of_length_eq_zero (by omega)
      subst hQ
      rw [frameFullBytes_small [] (by simp)]
      simp

theorem wireOf_noop : wireOf noopTok = [0, 0] := rfl

theorem flagByteOf_or (L : List Token) (h7 : L.length ≤ 7) :
    flagByteOf L ||| 2 ^ (7 - L.length) = flagByteOf (L ++ [noopTok]) := by
  unfold flagByteOf
  exact flags_or_bit L noopTok h7 rfl

theorem exactPadLoop_spec (cs : Nat) :
    ∀ fuel (L : List Token), 1 ≤ L.length → L.length ≤ 8 → 8 - L.length ≤ fuel →
      ∃ m, L.length + m ≤ 8 ∧
        exactPadLoop cs fuel (flagByteOf L)
            (if L.length ≤ 7 then 2 ^ (7 - L.length) else 0) (wireAll L)
          = (flagByteOf (L ++ List.replicate m noopTok),
             wireAll (L ++ List.replicate m noopTok)) ∧
        ((cs + (wireAll (L ++ List.replicate m noopTok)).length + 1) % 16 = 0 ∨
          L.length + m = 8) := by
  intro fuel
  induction fuel with
  | zero =>
    intro L h1 h8 hf
    have hL8 : L.length = 8 := by omega
    refine ⟨0, by omega, ?_, Or.inr (by omega)⟩
    simp only [List.replicate, List.append_nil, exactPadLoop]
  | succ fuel ih =>
    intro L h1 h8 hf
    simp only [exactPadLoop]
    by_cases hal : (cs + (wireAll L).length + 1) % 16 ≠ 0
    · rw [if_pos hal]
      by_cases hk : L.length ≤ 7
      · rw [if_pos hk, if_neg (by positivity)]
        rw [flagByteOf_or L hk]
        rw [show wireAll L ++ [0, 0] = wireAll (L ++ [noopTok]) from by
          rw [wireAll_append]
          rfl]
        have hshift : (2 : Nat) ^ (7 - L.length) >>> 1
            = if (L ++ [noopTok]).length ≤ 7 then 2 ^ (7 - (L ++ [noopTok]).length)
              else 0 := by
          rcases Nat.lt_or_ge L.length 7 with h | h
          · rw [flagPos_shift L.length (by omega), if_pos (by simp; omega)]
            simp
          · have h7 : L.length = 7 := by omega
            rw [if_neg (by simp; omega), h7]
            rfl
        rw [hshift]
        obtain ⟨m, hm8, heq, hexit⟩ := ih (L ++ [noopTok]) (by simp) (by simp; omega)
          (by simp; omega)
        refine ⟨m + 1, by simp at hm8 ⊢; omega, ?_, ?_⟩
        · rw [heq]
          rw [List.append_assoc, show [noopTok] ++ List.replicate m noopTok
              = List.replicate (m + 1) noopTok from by rw [List.replicate_succ]; rfl]
        · rw [List.append_assoc, show [noopTok] ++ List.replicate m noopTok
              = List.replicate (m + 1) noopTok from by rw [List.replicate_succ]; rfl]
            at hexit
          rcases hexit with h | h
          · exact Or.inl h
          · simp at h
            exact Or.inr (by omega)
      · have hL8 : L.length = 8 := by omega
        rw [if_neg hk, if_pos (show (0 : Nat) = 0 from rfl)]
        exact ⟨0, by omega, by simp, Or.inr (by omega)⟩
    · rw [if_neg hal]
      push_neg at hal
      exact ⟨0, by omega, by simp, Or.inl (by simpa using hal)⟩

theorem replicate_noop_valid (B : List Nat) :
    ∀ m p, ValidFrom B p (List.replicate m noopTok) := by
  intro m
  induction m with
  | zero => intro p; exact ValidFrom.nil p
  | succ m ih =>
    intro p
    rw [List.replicate_succ]
    exact ValidFrom.pad p _ (ih p)

theorem advTs_replicate_noop : ∀ m, advTs (List.replicate m noopTok) = 0 := by
  intro m
  induction m with
  | zero => rfl
  | succ m ih =>
    rw [List.replicate_succ]
    simp only [advTs, ih]
    rfl

theorem tokensOut_replicate_noop (B : List Nat) :
    ∀ m p, tokensOut B p (List.replicate m noopTok) = [] := by
  intro m
  induction m with
  | zero => intro p; rfl
  | succ m ih =>
    intro p
    rw [List.replicate_succ]
    simp only [noopTok, tokensOut, List.range_zero, List.map_nil, List.nil_append,
      Nat.add_zero]
    exact ih p

theorem blockPadBytes_length (cs : Nat) :
    (blockPadBytes cs).length = padding_lengths.getD (16 - cs % 16) 0 := by
  simp [blockPadBytes]

theorem blockPad_align_table : ∀ c, c < 16 → (c + padding_lengths.getD (16 - c) 0) % 16 = 0 := by
  decide

theorem blockPad_align (cs : Nat) : (cs + (blockPadBytes cs).length) % 16 = 0 := by
  rw [blockPadBytes_length]
  have h := blockPad_align_table (cs % 16) (Nat.mod_lt _ (by norm_num))
  omega

theorem blockPadBytes_aligned (cs : Nat) (h : cs % 16 = 0) : blockPadBytes cs = [] := by
  simp only [blockPadBytes, h]
  rfl

theorem plainPadBytes_aligned (cs : Nat) (h : cs % 16 = 0) : plainPadBytes cs = [] := by
  simp only [plainPadBytes, h]
  rfl

theorem plainPad_align (cs : Nat) : (cs + (plainPadBytes cs).length) % 16 = 0 := by
  simp only [plainPadBytes, List.length_replicate]
  omega

theorem encodeLZSS_nil (dp ep : Bool) : EncodeLZSS [] dp ep = [] := rfl

theorem encode_noPad (B : List Nat) (hB : B ≠ []) :
    EncodeLZSS B true false
      = frameFullBytes (tokenize B) ++ frameFrag (lastFrag (tokenize B)) := by
  rw [EncodeLZSS, if_neg (fun h => hB (List.eq_nil_of_length_eq_zero h)), encodeLoop_run]
  by_cases hL : lastFrag (tokenize B) = []
  · rw [hL]
    simp [frameFrag, wireAll]
  · rw [frameFrag, if_neg hL]
    have hne : (wireAll (lastFrag (tokenize B))).length ≠ 0 := by
      intro h
      exact hL ((wireAll_eq_nil_iff _).mp (List.eq_nil_of_length_eq_zero h))
    simp [hne]

theorem encode_plain (B : List Nat) (hB : B ≠ []) :
    EncodeLZSS B false false
      = (frameFullBytes (tokenize B) ++ frameFrag (lastFrag (tokenize B)))
        ++ plainPadBytes
            (frameFullBytes (tokenize B) ++ frameFrag (lastFrag (tokenize B))).length := by
  rw [EncodeLZSS, if_neg (fun h => hB (List.eq_nil_of_length_eq_zero h)), encodeLoop_run]
  by_cases hL : lastFrag (tokenize B) = []
  · rw [hL]
    simp [frameFrag, wireAll]
  · rw [frameFrag, if_neg hL]
    have hne : (wireAll (lastFrag (tokenize B))).length ≠ 0 := by
      intro h
      exact hL ((wireAll_eq_nil_iff _).mp (List.eq_nil_of_length_eq_zero h))
    simp [hne]

theorem pad_tail_eq (s : List Nat) (dp : Bool) :
    (if dp = false
     then (s ++ blockPadBytes s.length) ++ plainPadBytes (s ++ blockPadBytes s.length).length
     else s ++ blockPadBytes s.length)
    = s ++ blockPadBytes s.length := by
  cases dp with
  | true => rw [if_neg (by simp)]
  | false =>
    rw [if_pos (show (false : Bool) = false from rfl)]
    rw [plainPadBytes_aligned _ (by rw [List.length_append]; exact blockPad_align s.length),
      List.append_nil]

theorem encode_exact (B : List Nat) (dp : Bool) (hB : B ≠ []) :
    ∃ m, (lastFrag (tokenize B)).length + m ≤ 8 ∧
      EncodeLZSS B dp true
        = (frameFullBytes (tokenize B)
            ++ frameFrag (lastFrag (tokenize B) ++ List.replicate m noopTok))
          ++ blockPadBytes (frameFullBytes (tokenize B)
            ++ frameFrag (lastFrag (tokenize B) ++ List.replicate m noopTok)).length ∧
      ((frameFullBytes (tokenize B)
          ++ frameFrag (lastFrag (tokenize B) ++ List.replicate m noopTok)).length % 16 = 0
        ∨ 8 ∣ (lastFrag (tokenize B) ++ List.replicate m noopTok).length) := by
  by_cases hL : lastFrag (tokenize B) = []
  · -- no pending tokens: the last group was flushed at a group boundary
    refine ⟨0, by simp [hL], ?_, Or.inr (by simp [hL])⟩
    have hfrag : frameFrag (lastFrag (tokenize B) ++ List.replicate 0 noopTok) = [] := by
      simp [frameFrag, hL]
    rw [hfrag, List.append_nil]
    rw [EncodeLZSS, if_neg (fun h => hB (List.eq_nil_of_length_eq_zero h)), encodeLoop_run,
      hL]
    dsimp only [wireAll, List.length_nil]
    rw [if_neg (show ¬(0 : Nat) ≠ 0 from by omega)]
    rw [if_pos (show (true : Bool) = true from rfl)]
    exact pad_tail_eq (frameFullBytes (tokenize B)) dp
  · have h1L : 1 ≤ (lastFrag (tokenize B)).length := by
      rcases Nat.eq_zero_or_pos (lastFrag (tokenize B)).length with h | h
      · exact absurd (List.eq_nil_of_length_eq_zero h) hL
      · exact h
    have h7L : (lastFrag (tokenize B)).length ≤ 7 := by
      have := lastFrag_lt8 (tokenize B)
      omega
    have hne : (wireAll (lastFrag (tokenize B))).length ≠ 0 := by
      intro h
      exact hL ((wireAll_eq_nil_iff _).mp (List.eq_nil_of_length_eq_zero h))
    by_cases hal : ((frameFullBytes (tokenize B)).length
        + (wireAll (lastFrag (tokenize B))).length + 1) % 16 ≠ 0
    · -- misaligned pending group: the exact-padding token loop inserts no-op matches
      obtain ⟨m, hm8, heq, hexit⟩ := exactPadLoop_spec (frameFullBytes (tokenize B)).length
        8 (lastFrag (tokenize B)) h1L (by omega) (by omega)
      rw [if_pos h7L] at heq
      have hG : lastFrag (tokenize B) ++ List.replicate m noopTok ≠ [] := by
        intro h
        exact hL (List.append_eq_nil.mp h).1
      refine ⟨m, hm8, ?_, ?_⟩
      · rw [frameFrag, if_neg hG]
        rw [EncodeLZSS, if_neg (fun h => hB (List.eq_nil_of_length_eq_zero h)),
          encodeLoop_run]
        dsimp only
        rw [if_pos hne]
        rw [if_pos (show (true = true) ∧ ((frameFullBytes (tokenize B)).length
            + (wireAll (lastFrag (tokenize B))).length + 1) % 16 ≠ 0 from ⟨rfl, hal⟩)]
        rw [heq]
        dsimp only
        rw [if_pos (show (true : Bool) = true from rfl)]
        exact pad_tail_eq (frameFullBytes (tokenize B)
          ++ flagByteOf (lastFrag (tokenize B) ++ List.replicate m noopTok)
            :: wireAll (lastFrag (tokenize B) ++ List.replicate m noopTok)) dp
      · rcases hexit with h | h
        · left
          rw [frameFrag, if_neg hG]
          simp only [List.length_append, List.length_cons]
          omega
        · right
          rw [List.length_append, List.length_replicate]
          exact ⟨1, by omega⟩
    · -- aligned pending group: flushed as-is, and no block padding is needed
      push_neg at hal
      have hG : lastFrag (tokenize B) ++ List.replicate 0 noopTok ≠ [] := by
        simpa using hL
      refine ⟨0, by omega, ?_, Or.inl ?_⟩
      · rw [frameFrag, if_neg hG]
        simp only [List.replicate, List.append_nil]
        rw [EncodeLZSS, if_neg (fun h => hB (List.eq_nil_of_length_eq_zero h)),
          encodeLoop_run]
        dsimp only
        rw [if_pos hne]
        rw [if_neg (show ¬((true = true) ∧ ((frameFullBytes (tokenize B)).length
            + (wireAll (lastFrag (tokenize B))).length + 1) % 16 ≠ 0) from
          fun hc => hc.2 hal)]
        dsimp only
        rw [if_pos (show (true : Bool) = true from rfl)]
        exact pad_tail_eq (frameFullBytes (tokenize B)
          ++ flagByteOf (lastFrag (tokenize B)) :: wireAll (lastFrag (tokenize B))) dp
      · simp only [List.replicate, List.append_nil]
        rw [frameFrag, if_neg hL]
        simp only [List.length_append, List.length_cons]
        omega

/-!
### Whole-stream decoding of the encoder's output
-/

theorem WInv_zero (B : List Nat) (w : Nat → Nat) : WInv B 0 w := by
  intro j hj _
  exact absurd hj (by omega)

theorem tokenize_valid (B : List Nat) : ValidFrom B 0 (tokenize B) :=
  tokenizeFrom_valid B B.length 0

theorem tokensOut_tokenize (B : List Nat) : tokensOut B 0 (tokenize B) = B := by
  rw [tokenize, tokensOut_tokenizeFrom B B.length 0 (by omega), List.drop_zero]

theorem advTs_tokenize (B : List Nat) : advTs (tokenize B) = B.length := by
  have h := advTs_tokenizeFrom B B.length 0 (by omega) (by omega)
  simpa [tokenize] using h

theorem frameFullBytes_eq_take (ts : List Token) :
    frameFullBytes ts = frameFullBytes (ts.take (ts.length / 8 * 8)) := by
  conv_lhs => rw [tokenize_split ts]
  rw [frameFullBytes_append8 (ts.take (ts.length / 8 * 8)).length _ _ (le_refl _)
    (takeFull_dvd ts)]
  rw [frameFullBytes_small (lastFrag ts) (lastFrag_lt8 ts), List.append_nil]

theorem decode_stream_frag (B : List Nat) (Tf G : List Token) (h8 : 8 ∣ Tf.length)
    (hG : G.length ≤ 8) (hv : ValidFrom B 0 (Tf ++ G)) :
    DecodeLZSS (frameFullBytes Tf ++ frameFrag G) = tokensOut B 0 (Tf ++ G) := by
  obtain ⟨hv1, hv2⟩ := ValidFrom_append_inv B Tf G 0 hv
  rw [Nat.zero_add] at hv2
  rw [DecodeLZSS]
  obtain ⟨F2, w2, heq, hwi⟩ := decode_frameFull B Tf.length Tf (le_refl _) h8
    (frameFrag G) 0 0 0 initWindow hv1 (WInv_zero B initWindow) (Nat.zero_mod _).symm
  rw [heq]
  rw [Nat.zero_add] at hwi ⊢
  rw [decode_frameFrag B G (advTs Tf) (advTs Tf % WINDOW_SIZE) F2 w2 hG hv2 hwi rfl]
  rw [tokensOut_append B Tf G 0, Nat.zero_add]

theorem decode_stream_pad (B : List Nat) (Ts : List Token) (h8 : 8 ∣ Ts.length)
    (hv : ValidFrom B 0 Ts) (pad : List Nat)
    (hpad : ∀ F nc (w : Nat → Nat), decodeLoop pad F 7 nc w = []) :
    DecodeLZSS (frameFullBytes Ts ++ pad) = tokensOut B 0 Ts := by
  rw [DecodeLZSS]
  obtain ⟨F2, w2, heq, _⟩ := decode_frameFull B Ts.length Ts (le_refl _) h8
    pad 0 0 0 initWindow hv (WInv_zero B initWindow) (Nat.zero_mod _).symm
  rw [heq, hpad, List.append_nil]

theorem decode_blockPad (cs F nc : Nat) (w : Nat → Nat) :
    decodeLoop (blockPadBytes cs) F 7 nc w = [] := by
  have h16 : cs % 16 < 16 := Nat.mod_lt _ (by norm_num)
  simp only [blockPadBytes]
  set c := cs % 16 with hc
  clear_value c
  interval_cases c
  all_goals
    simp [padding_lengths, padding_block, List.range_succ, decodeLoop,
      decodeWireOffset, decodeWireLength, writeStaged]

theorem decode_encode_noPad (B : List Nat) : DecodeLZSS (EncodeLZSS B true false) = B := by
  by_cases hB : B = []
  · subst hB
    rfl
  · rw [encode_noPad B hB, frameFullBytes_eq_take (tokenize B)]
    rw [decode_stream_frag B ((tokenize B).take ((tokenize B).length / 8 * 8))
      (lastFrag (tokenize B)) (takeFull_dvd (tokenize B)) (le_of_lt (lastFrag_lt8 _))
      (by rw [← tokenize_split]; exact tokenize_valid B)]
    rw [← tokenize_split (tokenize B)]
    exact tokensOut_tokenize B

theorem tokensOut_with_noops (B : List Nat) (Tf L : List Token) (m : Nat) :
    tokensOut B 0 (Tf ++ (L ++ List.replicate m noopTok)) = tokensOut B 0 (Tf ++ L) := by
  rw [tokensOut_append B Tf _ 0, tokensOut_append B L _ _, tokensOut_replicate_noop,
    List.append_nil, ← tokensOut_append B Tf L 0]

theorem valid_with_noops (B : List Nat) (Tf L : List Token) (m : Nat)
    (hv : ValidFrom B 0 (Tf ++ L)) :
    ValidFrom B 0 (Tf ++ (L ++ List.replicate m noopTok)) := by
  obtain ⟨hv1, hv2⟩ := ValidFrom_append_inv B Tf L 0 hv
  refine ValidFrom_append B Tf _ 0 hv1 ?_
  exact ValidFrom_append B L _ _ hv2 (replicate_noop_valid B m _)

theorem frameFull_frag_full (Tf G : List Token) (h8 : 8 ∣ Tf.length)
    (hG8 : 8 ∣ G.length) (hGle : G.length ≤ 8) :
    frameFullBytes Tf ++ frameFrag G = frameFullBytes (Tf ++ G) := by
  rw [frameFullBytes_append8 Tf.length Tf G (le_refl _) h8]
  congr 1
  rcases Nat.eq_zero_or_pos G.length with h0 | hpos
  · have hG : G = [] := List.eq_nil_of_length_eq_zero h0
    subst hG
    rw [frameFullBytes_small [] (by simp)]
    rfl
  · have hG8e : G.length = 8 := by
      obtain ⟨c, hc⟩ := hG8
      omega
    have hGne : G ≠ [] := by
      intro h
      rw [h] at hG8e
      simp at hG8e
    rw [frameFrag, if_neg hGne, frameFullBytes, dif_pos (by omega)]
    rw [List.take_of_length_le (by omega), List.drop_of_length_le (by omega)]
    rw [frameFullBytes_small [] (by simp), List.append_nil]

theorem decode_encode_exact (B : List Nat) (dp : Bool) :
    DecodeLZSS (EncodeLZSS B dp true) = B := by
  by_cases hB : B = []
  · subst hB
    rw [encodeLZSS_nil]
    rfl
  · obtain ⟨m, hm8, heq, hdisj⟩ := encode_exact B dp hB
    rw [heq]
    have hGle : (lastFrag (tokenize B) ++ List.replicate m noopTok).length ≤ 8 := by
      rw [List.length_append, List.length_replicate]
      omega
    have hvTL : ValidFrom B 0 ((tokenize B).take ((tokenize B).length / 8 * 8)
        ++ lastFrag (tokenize B)) := by
      rw [← tokenize_split]
      exact tokenize_valid B
    have hv : ValidFrom B 0 ((tokenize B).take ((tokenize B).length / 8 * 8)
        ++ (lastFrag (tokenize B) ++ List.replicate m noopTok)) :=
      valid_with_noops B _ _ m hvTL
    have hout : tokensOut B 0 ((tokenize B).take ((tokenize B).length / 8 * 8)
        ++ (lastFrag (tokenize B) ++ List.replicate m noopTok)) = B := by
      rw [tokensOut_with_noops, ← tokenize_split]
      exact tokensOut_tokenize B
    rcases hdisj with hal | hdvd
    · -- the flushed stream is already 16-byte aligned: no block padding
      rw [blockPadBytes_aligned _ hal, List.append_nil]
      rw [frameFullBytes_eq_take (tokenize B)]
      rw [decode_stream_frag B _ _ (takeFull_dvd (tokenize B)) hGle hv]
      exact hout
    · -- the padding tokens completed the group: the stream is all full groups
      rw [frameFullBytes_eq_take (tokenize B)]
      rw [frameFull_frag_full _ _ (takeFull_dvd (tokenize B)) hdvd hGle]
      rw [decode_stream_pad B _ (by
          rw [List.length_append]
          obtain ⟨c, hc⟩ := takeFull_dvd (tokenize B)
          obtain ⟨c2, hc2⟩ := hdvd
          exact ⟨c + c2, by omega⟩) hv _
        (fun F nc w => decode_blockPad _ F nc w)]
      exact hout

theorem encode_exact_aligned (B : List Nat) (dp : Bool) :
    (EncodeLZSS B dp true).length % 16 = 0 := by
  by_cases hB : B = []
  · subst hB
    rw [encodeLZSS_nil]
    rfl
  · obtain ⟨m, _, heq, _⟩ := encode_exact B dp hB
    rw [heq, List.length_append]
    exact blockPad_align _

theorem encode_plain_aligned (B : List Nat) (ep : Bool) :
    (EncodeLZSS B false ep).length % 16 = 0 := by
  by_cases hB : B = []
  · subst hB
    rw [encodeLZSS_nil]
    rfl
  · cases ep with
    | true => exact encode_exact_aligned B false
    | false =>
      rw [encode_plain B hB, List.length_append]
      exact plainPad_align _

/-!
### Plain zero padding decodes to trailing zero bytes

Plain padding is appended after a possibly partial final flag group, so the
decoder keeps consuming it: the unused (zero) flag bits of the final group and
the zero flag bytes of the padding itself all announce literals, each emitting
a literal `0x00`.  The following lemmas track the decoder through the final
partial group with the padding still in the input, and then through the zeros.
-/

theorem decode_toks_partial (B : List Nat) :
    ∀ ts, ∀ rest : List Nat, ∀ f m p nc : Nat, ∀ w : Nat → Nat,
      1 ≤ m → m + ts.length ≤ 8 →
      (∀ i, i < ts.length →
        ((f * 2 ^ (m + i)) % 256 &&& 0x80 = 0 ↔ (ts.getD i noopTok).isCopy = false)) →
      ValidFrom B p ts → WInv B p w → nc = p % WINDOW_SIZE →
      ∃ w2 : Nat → Nat,
        decodeLoop (wireAll ts ++ rest) (f * 2 ^ (m - 1) % 256) (m - 1) nc w
          = tokensOut B p ts
            ++ decodeLoop rest (f * 2 ^ (m + ts.length - 1) % 256) (m + ts.length - 1)
                ((p + advTs ts) % WINDOW_SIZE) w2
        ∧ WInv B (p + advTs ts) w2 := by
  intro ts
  induction ts with
  | nil =>
    intro rest f m p nc w _ _ _ _ hw hnc
    refine ⟨w, ?_, ?_⟩
    · subst hnc
      simp only [wireAll, tokensOut, List.nil_append, List.length_nil, Nat.add_zero,
        advTs]
    · simpa [advTs] using hw
  | cons t ts2 ih =>
    intro rest f m p nc w hm1 hm8 hbits hv hw hnc
    have hML63 : MAX_LENGTH = 63 := rfl
    have hm7 : m ≤ 7 := by simp at hm8; omega
    have hshift : ((f * 2 ^ (m - 1) % 256) <<< 1) % 256 = f * 2 ^ m % 256 := by
      rw [shift_flag f (m - 1), show m - 1 + 1 = m from by omega]
    cases hv with
    | lit _ b0 _ hp hb hrest =>
      have hbit0 : (f * 2 ^ m) % 256 &&& 0x80 = 0 := by
        have := (hbits 0 (by simp)).mpr (by simp [Token.isCopy])
        rw [Nat.add_zero] at this
        exact this
      have hb2 : ((f * 2 ^ (m - 1) % 256) <<< 1) % 256 &&& 0x80 = 0 := by
        rw [hshift]; exact hbit0
      subst hb
      obtain ⟨w2, hrec, hwi⟩ := ih rest f (m + 1) (p + 1) ((nc + 1) % WINDOW_SIZE)
        (wupd w nc (B.getD p 0)) (by omega) (by simp at hm8 ⊢; omega)
        (fun i hi => by
          have := hbits (i + 1) (by simp; omega)
          rw [show m + (i + 1) = m + 1 + i from by omega] at this
          simpa using this)
        hrest (WInv_lit B p nc w hw hnc)
        (by simp only [WSIZE] at hnc ⊢; omega)
      refine ⟨w2, ?_, ?_⟩
      · rw [show wireAll (Token.lit (B.getD p 0) :: ts2) ++ rest
            = B.getD p 0 :: (wireAll ts2 ++ rest) from by simp [wireAll, wireOf]]
        rw [decodeLoop_step_lit (B.getD p 0) (wireAll ts2 ++ rest)
          (f * 2 ^ (m - 1) % 256) (m - 1) nc w (by omega) hb2]
        rw [hshift]
        simp only [Nat.add_sub_cancel] at hrec
        rw [show m - 1 + 1 = m from by omega, hrec]
        simp only [tokensOut, advTs, Token.adv, List.length_cons, List.cons_append]
        rw [show m + (ts2.length + 1) - 1 = m + 1 + ts2.length - 1 from by omega,
          show p + (1 + advTs ts2) = p + 1 + advTs ts2 from by omega]
      · simp only [advTs, Token.adv]
        rw [show p + (1 + advTs ts2) = p + 1 + advTs ts2 from by omega]
        exact hwi
    | copy _ d l _ a1 a2 a3 a4 a5 a6 a7 a8 hrest =>
      have hbit0 : ¬(f * 2 ^ m) % 256 &&& 0x80 = 0 := by
        intro h
        have := (hbits 0 (by simp)).mp (by rw [Nat.add_zero]; exact h)
        simp [Token.isCopy] at this
      have hb2 : ¬((f * 2 ^ (m - 1) % 256) <<< 1) % 256 &&& 0x80 = 0 := by
        rw [hshift]; exact hbit0
      have hwinv2 : WInv B (p + l) (writeStaged w nc
          ((List.range l).map fun i => B.getD (p + i) 0)) := by
        apply WInv_copy B p l nc w _ hw hnc (by simp)
          (by simp only [WSIZE]; omega)
        intro i hi
        exact range_map_getD _ l i hi
      obtain ⟨w2, hrec, hwi⟩ := ih rest f (m + 1) (p + l) ((nc + l) % WINDOW_SIZE) _
        (by omega) (by simp at hm8 ⊢; omega)
        (fun i hi => by
          have := hbits (i + 1) (by simp; omega)
          rw [show m + (i + 1) = m + 1 + i from by omega] at this
          simpa using this)
        hrest hwinv2
        (by simp only [WSIZE] at hnc ⊢; omega)
      refine ⟨w2, ?_, ?_⟩
      · rw [show wireAll (Token.copy d l :: ts2) ++ rest
            = ((d >>> 8) ||| (l <<< 2)) :: (d &&& 0xFF) :: (wireAll ts2 ++ rest) from by
          simp [wireAll, wireOf]]
        rw [decodeLoop_step_copy ((d >>> 8) ||| (l <<< 2)) (d &&& 0xFF)
          (wireAll ts2 ++ rest) (f * 2 ^ (m - 1) % 256) (m - 1) nc w (by omega) hb2]
        rw [decodeWireLength_wire d l (by simp only [WSIZE] at a3; omega)]
        rw [decodeWireOffset_wire d l (by simp only [WSIZE] at a3; omega)]
        rw [staged_spec B p d l nc w hw hnc a2 a3 a6 a8]
        rw [hshift]
        simp only [Nat.add_sub_cancel] at hrec
        rw [show m - 1 + 1 = m from by omega, hrec]
        simp only [tokensOut, advTs, Token.adv, List.length_cons, List.append_assoc]
        rw [show m + (ts2.length + 1) - 1 = m + 1 + ts2.length - 1 from by omega,
          show p + (l + advTs ts2) = p + l + advTs ts2 from by omega]
      · simp only [advTs, Token.adv]
        rw [show p + (l + advTs ts2) = p + l + advTs ts2 from by omega]
        exact hwi
    | pad _ _ hrest =>
      have hbit0 : ¬(f * 2 ^ m) % 256 &&& 0x80 = 0 := by
        intro h
        have := (hbits 0 (by simp)).mp (by rw [Nat.add_zero]; exact h)
        simp [noopTok, Token.isCopy] at this
      have hb2 : ¬((f * 2 ^ (m - 1) % 256) <<< 1) % 256 &&& 0x80 = 0 := by
        rw [hshift]; exact hbit0
      obtain ⟨w2, hrec, hwi⟩ := ih rest f (m + 1) p ((nc + 0) % WINDOW_SIZE) w
        (by omega) (by simp at hm8 ⊢; omega)
        (fun i hi => by
          have := hbits (i + 1) (by simp; omega)
          rw [show m + (i + 1) = m + 1 + i from by omega] at this
          simpa using this)
        hrest hw
        (by simp only [WSIZE] at hnc ⊢; omega)
      refine ⟨w2, ?_, ?_⟩
      · rw [show wireAll (Token.copy 0 0 :: ts2) ++ rest
            = ((0 >>> 8) ||| (0 <<< 2)) :: (0 &&& 0xFF) :: (wireAll ts2 ++ rest) from by
          simp [wireAll, wireOf]]
        rw [decodeLoop_step_copy ((0 >>> 8) ||| (0 <<< 2)) (0 &&& 0xFF)
          (wireAll ts2 ++ rest) (f * 2 ^ (m - 1) % 256) (m - 1) nc w (by omega) hb2]
        rw [decodeWireLength_wire 0 0 (by omega)]
        rw [decodeWireOffset_wire 0 0 (by omega)]
        simp only [List.range_zero, List.map_nil, List.nil_append]
        rw [show writeStaged w nc [] = w from rfl]
        rw [hshift]
        simp only [Nat.add_sub_cancel] at hrec
        rw [show m - 1 + 1 = m from by omega, hrec]
        simp only [tokensOut, advTs, Token.adv, List.length_cons, List.range_zero,
          List.map_nil, List.nil_append, Nat.add_zero, Nat.zero_add]
        rw [show m + (ts2.length + 1) - 1 = m + 1 + ts2.length - 1 from by omega]
      · simp only [advTs, Token.adv]
        rw [show p + (0 + advTs ts2) = p + advTs ts2 from by omega]
        simpa using hwi

theorem decode_group_partial (B : List Nat) (t : Token) (g2 : List Token)
    (rest : List Nat) (p nc F : Nat) (w : Nat → Nat) (hg8 : (t :: g2).length ≤ 8)
    (hv : ValidFrom B p (t :: g2)) (hw : WInv B p w) (hnc : nc = p % WINDOW_SIZE) :
    ∃ w2 : Nat → Nat,
      decodeLoop ((flagByteOf (t :: g2) :: wireAll (t :: g2)) ++ rest) F 7 nc w
        = tokensOut B p (t :: g2)
          ++ decodeLoop rest (flagByteOf (t :: g2) * 2 ^ g2.length % 256) g2.length
              ((p + advTs (t :: g2)) % WINDOW_SIZE) w2
      ∧ WInv B (p + advTs (t :: g2)) w2 := by
  have hML63 : MAX_LENGTH = 63 := rfl
  have hbt := flagByte_test (t :: g2) 0 hg8 (by simp)
  rw [pow_zero, Nat.mul_one] at hbt
  have hbits2 : ∀ i, i < g2.length →
      ((flagByteOf (t :: g2) * 2 ^ (1 + i)) % 256 &&& 0x80 = 0
        ↔ (g2.getD i noopTok).isCopy = false) := by
    intro i hi
    have := flagByte_test (t :: g2) (i + 1) hg8 (by simp; omega)
    rw [show (1 : Nat) + i = i + 1 from by omega]
    simpa using this
  cases hv with
  | lit _ b0 _ hp hb hrest =>
    have hbit0 : flagByteOf (Token.lit b0 :: g2) % 256 &&& 0x80 = 0 :=
      hbt.mpr (by simp [Token.isCopy])
    subst hb
    obtain ⟨w2, htoks, hwi⟩ := decode_toks_partial B g2 rest
      (flagByteOf (Token.lit (B.getD p 0) :: g2)) 1
      (p + 1) ((nc + 1) % WINDOW_SIZE) (wupd w nc (B.getD p 0)) (by omega)
      (by simp at hg8 ⊢; omega) hbits2 hrest (WInv_lit B p nc w hw hnc)
      (by simp only [WSIZE] at hnc ⊢; omega)
    simp only [Nat.sub_self, pow_zero, Nat.mul_one, Nat.add_sub_cancel_left] at htoks
    refine ⟨w2, ?_, ?_⟩
    · rw [show (flagByteOf (Token.lit (B.getD p 0) :: g2)
            :: wireAll (Token.lit (B.getD p 0) :: g2)) ++ rest
          = flagByteOf (Token.lit (B.getD p 0) :: g2)
            :: B.getD p 0 :: (wireAll g2 ++ rest) from by simp [wireAll, wireOf]]
      rw [decodeLoop_flag_lit (flagByteOf (Token.lit (B.getD p 0) :: g2)) (B.getD p 0)
        (wireAll g2 ++ rest) F nc w (by rw [and255_eq_mod]; exact hbit0)]
      rw [and255_eq_mod, htoks]
      simp only [tokensOut, advTs, Token.adv, List.cons_append, List.length_cons]
      rw [show p + (1 + advTs g2) = p + 1 + advTs g2 from by omega]
    · simp only [advTs, Token.adv]
      rw [show p + (1 + advTs g2) = p + 1 + advTs g2 from by omega]
      exact hwi
  | copy _ d l _ a1 a2 a3 a4 a5 a6 a7 a8 hrest =>
    have hbit0 : ¬flagByteOf (Token.copy d l :: g2) % 256 &&& 0x80 = 0 := by
      intro h
      have := hbt.mp h
      simp [Token.isCopy] at this
    have hwinv2 : WInv B (p + l) (writeStaged w nc
        ((List.range l).map fun i => B.getD (p + i) 0)) := by
      apply WInv_copy B p l nc w _ hw hnc (by simp)
        (by simp only [WSIZE]; omega)
      intro i hi
      exact range_map_getD _ l i hi
    obtain ⟨w2, htoks, hwi⟩ := decode_toks_partial B g2 rest
      (flagByteOf (Token.copy d l :: g2)) 1
      (p + l) ((nc + l) % WINDOW_SIZE) _ (by omega)
      (by simp at hg8 ⊢; omega) hbits2 hrest hwinv2
      (by simp only [WSIZE] at hnc ⊢; omega)
    simp only [Nat.sub_self, pow_zero, Nat.mul_one, Nat.add_sub_cancel_left] at htoks
    refine ⟨w2, ?_, ?_⟩
    · rw [show (flagByteOf (Token.copy d l :: g2) :: wireAll (Token.copy d l :: g2))
            ++ rest
          = flagByteOf (Token.copy d l :: g2) :: ((d >>> 8) ||| (l <<< 2))
            :: (d &&& 0xFF) :: (wireAll g2 ++ rest) from by simp [wireAll, wireOf]]
      rw [decodeLoop_flag_copy (flagByteOf (Token.copy d l :: g2))
        ((d >>> 8) ||| (l <<< 2)) (d &&& 0xFF) (wireAll g2 ++ rest) F nc w
        (by rw [and255_eq_mod]; exact hbit0)]
      rw [decodeWireLength_wire d l (by simp only [WSIZE] at a3; omega)]
      rw [decodeWireOffset_wire d l (by simp only [WSIZE] at a3; omega)]
      rw [staged_spec B p d l nc w hw hnc a2 a3 a6 a8]
      rw [and255_eq_mod, htoks]
      simp only [tokensOut, advTs, Token.adv, List.append_assoc, List.length_cons]
      rw [show p + (l + advTs g2) = p + l + advTs g2 from by omega]
    · simp only [advTs, Token.adv]
      rw [show p + (l + advTs g2) = p + l + advTs g2 from by omega]
      exact hwi
  | pad _ _ hrest =>
    have hbit0 : ¬flagByteOf (Token.copy 0 0 :: g2) % 256 &&& 0x80 = 0 := by
      intro h
      have := hbt.mp h
      simp [noopTok, Token.isCopy] at this
    obtain ⟨w2, htoks, hwi⟩ := decode_toks_partial B g2 rest
      (flagByteOf (Token.copy 0 0 :: g2)) 1
      p ((nc + 0) % WINDOW_SIZE) w (by omega)
      (by simp at hg8 ⊢; omega) hbits2 hrest hw
      (by simp only [WSIZE] at hnc ⊢; omega)
    simp only [Nat.sub_self, pow_zero, Nat.mul_one, Nat.add_sub_cancel_left] at htoks
    refine ⟨w2, ?_, ?_⟩
    · rw [show (flagByteOf (Token.copy 0 0 :: g2) :: wireAll (Token.copy 0 0 :: g2))
            ++ rest
          = flagByteOf (Token.copy 0 0 :: g2) :: ((0 >>> 8) ||| (0 <<< 2))
            :: (0 &&& 0xFF) :: (wireAll g2 ++ rest) from by simp [wireAll, wireOf]]
      rw [decodeLoop_flag_copy (flagByteOf (Token.copy 0 0 :: g2))
        ((0 >>> 8) ||| (0 <<< 2)) (0 &&& 0xFF) (wireAll g2 ++ rest) F nc w
        (by rw [and255_eq_mod]; exact hbit0)]
      rw [decodeWireLength_wire 0 0 (by omega)]
      rw [decodeWireOffset_wire 0 0 (by omega)]
      simp only [List.range_zero, List.map_nil, List.nil_append]
      rw [show writeStaged w nc [] = w from rfl]
      rw [and255_eq_mod, htoks]
      simp only [tokensOut, advTs, Token.adv, List.range_zero, List.map_nil,
        List.nil_append, Nat.add_zero, Nat.zero_add, List.length_cons]
    · simp only [advTs, Token.adv]
      simpa using hwi

theorem flagByte_tail_zero (P : List Token) (hP8 : P.length ≤ 8) (hP1 : 1 ≤ P.length) :
    ∀ i, 1 ≤ i → P.length - 1 + i ≤ 7 →
      ((flagByteOf P * 2 ^ (P.length - 1) % 256) * 2 ^ i) % 256 &&& 0x80 = 0 := by
  intro i h1 _
  rw [Nat.mod_mul_mod, mul_assoc, ← pow_add]
  obtain ⟨c, hc⟩ := flagBitsAux_dvd P 0 (by omega)
  rw [Nat.zero_add] at hc
  rw [show flagByteOf P = flagBitsAux P 0 from rfl, hc]
  rw [show 2 ^ (8 - P.length) * c * 2 ^ (P.length - 1 + i)
      = c * 2 ^ (i - 1) * 256 from by
    rw [mul_comm _ c, mul_assoc, ← pow_add,
      show 8 - P.length + (P.length - 1 + i) = (i - 1) + 8 from by omega, pow_add]
    norm_num [mul_assoc]]
  rw [Nat.mul_mod_left]
  rfl

theorem decode_zeros :
    ∀ z F k nc : Nat, ∀ w : Nat → Nat, k ≤ 7 →
      (∀ i, 1 ≤ i → k + i ≤ 7 → (F * 2 ^ i) % 256 &&& 0x80 = 0) →
      ∃ z2, decodeLoop (List.replicate z 0) F k nc w = List.replicate z2 0 := by
  intro z
  induction z using Nat.strong_induction_on with
  | _ z ih =>
    intro F k nc w hk hbits
    cases z with
    | zero =>
      refine ⟨0, ?_⟩
      rw [List.replicate_zero, decodeLoop_nil]
    | succ z =>
      by_cases hk7 : k = 7
      · subst hk7
        rw [List.replicate_succ]
        cases z with
        | zero =>
          refine ⟨0, ?_⟩
          rw [List.replicate_zero, decodeLoop_flag_end]
        | succ z2 =>
          rw [List.replicate_succ]
          rw [decodeLoop_flag_lit 0 0 (List.replicate z2 0) F nc w (by decide)]
          obtain ⟨z3, hz3⟩ := ih z2 (by omega) (0 &&& 0xFF) 0 ((nc + 1) % WINDOW_SIZE)
            (wupd w nc 0) (by omega)
            (fun i _ _ => by
              rw [show (0 : Nat) &&& 0xFF = 0 from rfl, Nat.zero_mul, Nat.zero_mod]
              rfl)
          exact ⟨z3 + 1, by rw [hz3, List.replicate_succ]⟩
      · have hbit : ((F <<< 1) % 256) &&& 0x80 = 0 := by
          rw [shiftLeft1_eq, show (2 : Nat) = 2 ^ 1 from rfl]
          exact hbits 1 (le_refl 1) (by omega)
        rw [List.replicate_succ]
        rw [decodeLoop_step_lit 0 (List.replicate z 0) F k nc w (by omega) hbit]
        obtain ⟨z3, hz3⟩ := ih z (by omega) ((F <<< 1) % 256) (k + 1)
          ((nc + 1) % WINDOW_SIZE) (wupd w nc 0) (by omega)
          (fun i hi1 hi7 => by
            rw [shiftLeft1_eq, Nat.mod_mul_mod, mul_assoc,
              show (2 : Nat) * 2 ^ i = 2 ^ (i + 1) from by rw [pow_succ]; ring]
            exact hbits (i + 1) (by omega) (by omega))
        exact ⟨z3 + 1, by rw [hz3, List.replicate_succ]⟩

theorem decode_encode_plain_zeros (B : List Nat) :
    ∃ z, DecodeLZSS (EncodeLZSS B false false) = B ++ List.replicate z 0 := by
  by_cases hB : B = []
  · subst hB
    exact ⟨0, rfl⟩
  · rw [encode_plain B hB]
    simp only [plainPadBytes]
    rw [frameFullBytes_eq_take (tokenize B), List.append_assoc]
    have hvTL : ValidFrom B 0 ((tokenize B).take ((tokenize B).length / 8 * 8)
        ++ lastFrag (tokenize B)) := by
      rw [← tokenize_split]
      exact tokenize_valid B
    obtain ⟨hvTf, hvL⟩ := ValidFrom_append_inv B _ _ 0 hvTL
    rw [Nat.zero_add] at hvL
    rw [DecodeLZSS]
    obtain ⟨F2, w2, heq, hwi⟩ := decode_frameFull B
      ((tokenize B).take ((tokenize B).length / 8 * 8)).length _ (le_refl _)
      (takeFull_dvd (tokenize B)) _ 0 0 0 initWindow hvTf (WInv_zero B initWindow)
      (Nat.zero_mod _).symm
    rw [heq]
    rw [Nat.zero_add] at hwi ⊢
    have htf : tokensOut B 0 ((tokenize B).take ((tokenize B).length / 8 * 8))
        ++ tokensOut B (advTs ((tokenize B).take ((tokenize B).length / 8 * 8)))
          (lastFrag (tokenize B)) = B := by
      rw [← Nat.zero_add (advTs _), ← tokensOut_append B _ _ 0, ← tokenize_split]
      exact tokensOut_tokenize B
    rcases hLs : lastFrag (tokenize B) with _ | ⟨t, g2⟩
    · -- empty final fragment: the padding immediately follows a full group
      rw [show frameFrag [] = [] from rfl, List.nil_append]
      obtain ⟨z2, hz2⟩ := decode_zeros _ F2 7 _ w2 (le_refl 7)
        (fun i _ hi7 => absurd hi7 (by omega))
      refine ⟨z2, ?_⟩
      rw [hz2]
      rw [hLs] at htf
      simp only [tokensOut, List.append_nil] at htf
      rw [htf]
    · -- nonempty final fragment followed by the zero padding
      rw [hLs] at hvL
      have hlen8 : (t :: g2).length ≤ 8 := by
        rw [← hLs]
        exact le_of_lt (lastFrag_lt8 _)
      rw [frameFrag, if_neg (by simp)]
      obtain ⟨w3, heq2, _⟩ := decode_group_partial B t g2 _
        (advTs ((tokenize B).take ((tokenize B).length / 8 * 8)))
        (advTs ((tokenize B).take ((tokenize B).length / 8 * 8)) % WINDOW_SIZE) F2 w2
        hlen8 hvL hwi rfl
      rw [heq2]
      obtain ⟨z2, hz2⟩ := decode_zeros _
        (flagByteOf (t :: g2) * 2 ^ g2.length % 256) g2.length _ w3
        (by simp at hlen8; omega)
        (fun i h1 h2 => by
          have hb := flagByte_tail_zero (t :: g2) hlen8 (by simp) i h1
            (by simp only [List.length_cons, Nat.add_sub_cancel]; omega)
          simpa only [List.length_cons, Nat.add_sub_cancel] using hb)
      rw [hz2]
      refine ⟨z2, ?_⟩
      rw [← List.append_assoc]
      rw [hLs] at htf
      rw [htf]

/-!
### Bounds on emitted match tokens
-/

theorem tokenize_copy_mem (B : List Nat) :
    ∀ fuel pos d l, Token.copy d l ∈ tokenizeFrom B fuel pos →
      3 ≤ d ∧ d ≤ WINDOW_SIZE ∧ 3 ≤ l ∧ l ≤ MAX_LENGTH ∧ l ≤ d := by
  intro fuel
  induction fuel with
  | zero =>
    intro pos d l h
    simp [tokenizeFrom] at h
  | succ fuel ih =>
    intro pos d l h
    simp only [tokenizeFrom] at h
    by_cases hp : pos < B.length
    · rw [if_pos hp] at h
      by_cases hm : 3 ≤ (findBest B pos).1 ∧ 3 ≤ (findBest B pos).2
      · rw [if_pos hm] at h
        rcases List.mem_cons.mp h with he | ht
        · have hde : d = (findBest B pos).2 ∧ l = (findBest B pos).1 := by
            simpa [Token.copy.injEq] using he
          obtain ⟨hd, hl⟩ := hde
          subst hd
          subst hl
          rcases findBest_good B pos with ⟨h1, _⟩ | ⟨h1, h2, h3, h4, h5, _, _⟩
          · omega
          · have hmin : min pos WINDOW_SIZE ≤ WINDOW_SIZE := Nat.min_le_right _ _
            exact ⟨h3, by omega, h1, h2, h5⟩
        · exact ih _ d l ht
      · rw [if_neg hm] at h
        rcases List.mem_cons.mp h with he | ht
        · exact absurd he (by simp)
        · exact ih _ d l ht
    · rw [if_neg hp] at h
      simp at h

/-!
### Decoder truncation: output so far is preserved
-/

theorem decodeLoop_app_ex :
    ∀ n (s : List Nat), s.length ≤ n → ∀ (t : List Nat) (F k nc : Nat) (w : Nat → Nat),
      ∃ u, decodeLoop (s ++ t) F k nc w = decodeLoop s F k nc w ++ u := by
  intro n
  induction n with
  | zero =>
    intro s hs t F k nc w
    have hse : s = [] := List.eq_nil_of_length_eq_zero (by omega)
    subst hse
    exact ⟨decodeLoop t F k nc w, by rw [List.nil_append, decodeLoop_nil, List.nil_append]⟩
  | succ n ih =>
    intro s hs t F k nc w
    match s with
    | [] =>
      exact ⟨decodeLoop t F k nc w,
        by rw [List.nil_append, decodeLoop_nil, List.nil_append]⟩
    | c :: s2 =>
      by_cases hk : k + 1 = 8
      · have hk7 : k = 7 := by omega
        subst hk7
        by_cases hbit : c &&& 0xFF &&& 0x80 = 0
        · match s2 with
          | [] =>
            refine ⟨decodeLoop ((c :: []) ++ t) F 7 nc w, ?_⟩
            rw [decodeLoop_flag_end, List.nil_append]
          | b :: s3 =>
            obtain ⟨u, hu⟩ := ih s3 (by simp at hs; omega) t (c &&& 0xFF) 0
              ((nc + 1) % WINDOW_SIZE) (wupd w nc b)
            refine ⟨u, ?_⟩
            rw [show (c :: b :: s3) ++ t = c :: b :: (s3 ++ t) from rfl]
            rw [decodeLoop_flag_lit c b (s3 ++ t) F nc w hbit,
              decodeLoop_flag_lit c b s3 F nc w hbit, hu, List.cons_append]
        · match s2 with
          | [] =>
            refine ⟨decodeLoop ((c :: []) ++ t) F 7 nc w, ?_⟩
            rw [decodeLoop_flag_end, List.nil_append]
          | [b0] =>
            refine ⟨decodeLoop ((c :: b0 :: []) ++ t) F 7 nc w, ?_⟩
            rw [decodeLoop_flag_copy_short c b0 F nc w hbit, List.nil_append]
          | b0 :: b1 :: s3 =>
            obtain ⟨u, hu⟩ := ih s3 (by simp at hs; omega) t (c &&& 0xFF) 0
              ((nc + decodeWireLength b0) % WINDOW_SIZE)
              (writeStaged w nc ((List.range (decodeWireLength b0)).map fun i =>
                w (decodeSrcPos nc (decodeWireOffset b0 b1) i)))
            refine ⟨u, ?_⟩
            rw [show (c :: b0 :: b1 :: s3) ++ t = c :: b0 :: b1 :: (s3 ++ t) from rfl]
            rw [decodeLoop_flag_copy c b0 b1 (s3 ++ t) F nc w hbit,
              decodeLoop_flag_copy c b0 b1 s3 F nc w hbit, hu, List.append_assoc]
      · by_cases hbit : (F <<< 1) % 256 &&& 0x80 = 0
        · obtain ⟨u, hu⟩ := ih s2 (by simp at hs; omega) t ((F <<< 1) % 256) (k + 1)
            ((nc + 1) % WINDOW_SIZE) (wupd w nc c)
          refine ⟨u, ?_⟩
          rw [show (c :: s2) ++ t = c :: (s2 ++ t) from rfl]
          rw [decodeLoop_step_lit c (s2 ++ t) F k nc w hk hbit,
            decodeLoop_step_lit c s2 F k nc w hk hbit, hu, List.cons_append]
        · match s2 with
          | [] =>
            refine ⟨decodeLoop ((c :: []) ++ t) F k nc w, ?_⟩
            rw [decodeLoop_copy_short c F k nc w hk hbit, List.nil_append]
          | b1 :: s3 =>
            obtain ⟨u, hu⟩ := ih s3 (by simp at hs; omega) t ((F <<< 1) % 256) (k + 1)
              ((nc + decodeWireLength c) % WINDOW_SIZE)
              (writeStaged w nc ((List.range (decodeWireLength c)).map fun i =>
                w (decodeSrcPos nc (decodeWireOffset c b1) i)))
            refine ⟨u, ?_⟩
            rw [show (c :: b1 :: s3) ++ t = c :: b1 :: (s3 ++ t) from rfl]
            rw [decodeLoop_step_copy c b1 (s3 ++ t) F k nc w hk hbit,
              decodeLoop_step_copy c b1 s3 F k nc w hk hbit, hu, List.append_assoc]

/-!
### The claims
-/

/-- C1: for every byte sequence `B`, including the empty one, decoding the
result of encoding `B` with padding suppressed (`-p` set, exact padding off)
yields exactly `B`. -/
theorem C1_roundtrip_noPad : ∀ B : List Nat, DecodeLZSS (EncodeLZSS B true false) = B :=
  decode_encode_noPad

/-- C2 (amended): for every `B` and every combination of the padding options,
decoding the encoded output yields `B` followed by some number of zero bytes;
the zero count is 0 (exact round-trip) whenever plain padding is suppressed or
exact padding is on.  The original claim — that padding never changes the
decoded content — is false for plain padding alone (see the counterexample):
the trailing zero bytes are decoded as literal `0x00` bytes via the unused flag
bits of a partial final group. -/
theorem C2_padding_roundtrip : ∀ (B : List Nat) (dp ep : Bool),
    (∃ z, DecodeLZSS (EncodeLZSS B dp ep) = B ++ List.replicate z 0)
    ∧ ((dp = true ∨ ep = true) → DecodeLZSS (EncodeLZSS B dp ep) = B) := by
  intro B dp ep
  constructor
  · cases ep with
    | true => exact ⟨0, by rw [decode_encode_exact B dp]; simp⟩
    | false =>
      cases dp with
      | true => exact ⟨0, by rw [decode_encode_noPad B]; simp⟩
      | false => exact decode_encode_plain_zeros B
  · intro h
    cases ep with
    | true => exact decode_encode_exact B dp
    | false =>
      cases dp with
      | true => exact decode_encode_noPad B
      | false => rcases h with h | h <;> exact absurd h (by simp)

/-- C2 counterexample: encoding the single byte `0x41` with plain padding
enabled and decoding the result does not give back `[0x41]` (the decoder also
emits the padding zeros as literals). -/
theorem C2_counterexample : ¬DecodeLZSS (EncodeLZSS [65] false false) = [65] := by
  decide

/-- C3: with plain padding enabled the output length is a multiple of 16; with
exact padding the output length is a multiple of 16 and decoding the padded
stream yields exactly `B`. -/
theorem C3_padding_alignment : ∀ (B : List Nat) (dp ep : Bool),
    (EncodeLZSS B false ep).length % 16 = 0
    ∧ (EncodeLZSS B dp true).length % 16 = 0
    ∧ DecodeLZSS (EncodeLZSS B dp true) = B :=
  fun B dp ep =>
    ⟨encode_plain_aligned B ep, encode_exact_aligned B dp, decode_encode_exact B dp⟩

/-- C4: every match token the encoder emits satisfies
`3 ≤ distance ≤ 1023`, `3 ≤ length ≤ 63` and `length ≤ distance`. -/
theorem C4_match_bounds : ∀ (B : List Nat) (d l : Nat), Token.copy d l ∈ tokenize B →
    3 ≤ d ∧ d ≤ WINDOW_SIZE ∧ 3 ≤ l ∧ l ≤ MAX_LENGTH ∧ l ≤ d :=
  fun B d l h => tokenize_copy_mem B B.length 0 d l h

/-- C4 witness: on `[1,2,3,1,2,3]` the encoder emits the match
`(distance 3, length 3)`, and the bounds hold for it. -/
theorem C4_witness :
    Token.copy 3 3 ∈ tokenize [1, 2, 3, 1, 2, 3]
    ∧ (3 ≤ 3 ∧ 3 ≤ WINDOW_SIZE ∧ 3 ≤ 3 ∧ 3 ≤ MAX_LENGTH ∧ 3 ≤ 3) :=
  ⟨by decide, C4_match_bounds [1, 2, 3, 1, 2, 3] 3 3 (by decide)⟩

/-- C5: the candidate scan starts at distance 3 with best state `(2, 0)`.
(a) When no candidate's matched byte count exceeds 63, either no candidate
beats the initial state (nothing of length ≥ 3 is found), or the result is
`(maxLen, e)` where `maxLen` is the maximal matched count over all candidate
distances and `e` is the smallest distance achieving it (every smaller
distance matches strictly fewer bytes) — the ascending scan with
strictly-greater update fixes the tie-break.  (b) Whenever the first candidate
`d0` whose matched count exceeds 63 exists, the scan returns exactly
`(63, d0)`: the length is clamped, that candidate's distance is kept, and no
further distance can influence the result. -/
theorem C5_search_characterisation (B : List Nat) (pos rem fuel : Nat) :
    ((∀ e, 3 ≤ e → e < 3 + fuel → matchLenAt B pos rem e ≤ MAX_LENGTH) →
      (searchFrom B pos rem fuel 3 2 0 = (2, 0)
        ∧ ∀ e, 3 ≤ e → e < 3 + fuel → matchLenAt B pos rem e ≤ 2) ∨
      (∃ e, 3 ≤ e ∧ e < 3 + fuel
        ∧ searchFrom B pos rem fuel 3 2 0 = (matchLenAt B pos rem e, e)
        ∧ (∀ e2, 3 ≤ e2 → e2 < 3 + fuel →
            matchLenAt B pos rem e2 ≤ matchLenAt B pos rem e)
        ∧ (∀ e2, 3 ≤ e2 → e2 < e →
            matchLenAt B pos rem e2 < matchLenAt B pos rem e)))
    ∧ (∀ d0, 3 ≤ d0 → d0 < 3 + fuel → MAX_LENGTH < matchLenAt B pos rem d0 →
        (∀ e, 3 ≤ e → e < d0 → matchLenAt B pos rem e ≤ MAX_LENGTH) →
        searchFrom B pos rem fuel 3 2 0 = (MAX_LENGTH, d0)) := by
  constructor
  · intro h63
    rw [searchFrom_eq_NR B pos rem fuel 3 2 0 (by norm_num [MAX_LENGTH])]
    rcases searchFromNR_spec B pos rem fuel 3 2 0 h63 (by norm_num [MAX_LENGTH]) with
      ⟨heq, hall⟩ | ⟨e, he1, he2, _, he4, he5, he6⟩
    · exact Or.inl ⟨heq, hall⟩
    · exact Or.inr ⟨e, he1, he2, he4, he5, he6⟩
  · intro d0 h1 h2 hbig hsmall
    rw [searchFrom_eq_NR B pos rem fuel 3 2 0 (by norm_num [MAX_LENGTH])]
    exact searchFromNR_clamp B pos rem fuel 3 2 0 d0 h1 h2 (by norm_num [MAX_LENGTH])
      hbig hsmall

set_option maxRecDepth 100000 in
/-- C5 witness: at position 64 of 128 repeated `5` bytes, candidate distance 64
matches 64 > 63 bytes, all smaller distances match at most 63: the scan is
clamped to `(63, 64)`. -/
theorem C5_witness :
    searchFrom (List.replicate 128 5) 64 64 62 3 2 0 = (MAX_LENGTH, 64) :=
  (C5_search_characterisation (List.replicate 128 5) 64 64 62).2 64 (by norm_num)
    (by norm_num) (by decide)
    (fun e h3 hlt =>
      (by decide :
        ∀ e, e < 64 → 3 ≤ e → matchLenAt (List.replicate 128 5) 64 64 e ≤ MAX_LENGTH)
        e hlt h3)

/-- C6: the two quick rejection checks of the candidate scan (first-byte
mismatch; mismatch at the current best-length offset) never change the result:
the scan with the checks equals the scan that always does the full compare,
both from the scan's entry state and at the `findBest` level. -/
theorem C6_rejection_checks_sound :
    (∀ (B : List Nat) (pos rem fuel d : Nat),
      searchFrom B pos rem fuel d 2 0 = searchFromNR B pos rem fuel d 2 0)
    ∧ ∀ (B : List Nat) (pos : Nat), findBest B pos = findBestNR B pos :=
  ⟨fun B pos rem fuel d => searchFrom_eq_NR B pos rem fuel d 2 0
      (by norm_num [MAX_LENGTH]),
   fun B pos => findBest_eq_NR B pos⟩

/-- C7: a match is serialized as `byte0 = (distance >> 8) | (length << 2)`,
`byte1 = distance & 0xFF`, and deserialized as
`distance = byte1 + ((byte0 & 0x03) << 8)`, `length = byte0 >> 2`; for every
distance in `[0, 1023]` and length in `[0, 63]` the round-trip is exact. -/
theorem C7_wire_roundtrip : ∀ d l : Nat, d ≤ 1023 → l ≤ 63 →
    wireOf (Token.copy d l) = [(d >>> 8) ||| (l <<< 2), d &&& 0xFF]
    ∧ decodeWireOffset ((d >>> 8) ||| (l <<< 2)) (d &&& 0xFF) = d
    ∧ decodeWireLength ((d >>> 8) ||| (l <<< 2)) = l := by
  intro d l hd _
  exact ⟨rfl, decodeWireOffset_wire d l hd, decodeWireLength_wire d l hd⟩

/-- C7 witness: the wire round-trip at `distance = 515`, `length = 20`. -/
theorem C7_witness :
    wireOf (Token.copy 515 20) = [(515 >>> 8) ||| (20 <<< 2), 515 &&& 0xFF]
    ∧ decodeWireOffset ((515 >>> 8) ||| (20 <<< 2)) (515 &&& 0xFF) = 515
    ∧ decodeWireLength ((515 >>> 8) ||| (20 <<< 2)) = 20 :=
  C7_wire_roundtrip 515 20 (by decide) (by decide)

/-- C8: end of input while a flag byte is expected is normal termination
(nothing more is emitted, no error); end of input mid-token stops decoding
with every byte already emitted preserved: for any split of the input, the
decode of the truncated stream is a prefix of the decode of the full stream
(no rollback). -/
theorem C8_eof_handling :
    (∀ (F nc : Nat) (w : Nat → Nat), decodeLoop [] F 7 nc w = [])
    ∧ ∀ (s t : List Nat) (F k nc : Nat) (w : Nat → Nat),
        ∃ u, decodeLoop (s ++ t) F k nc w = decodeLoop s F k nc w ++ u :=
  ⟨fun F nc w => decodeLoop_nil F 7 nc w,
   fun s t F k nc w => decodeLoop_app_ex s.length s (le_refl _) t F k nc w⟩

/-- C9 (amended): encoding the empty input returns immediately with NO output
at all — the early return skips the padding stages, so even with plain padding
enabled the output is empty, not 16 zero bytes (see the counterexample); and
decoding that empty output yields the empty sequence. -/
theorem C9_empty_input :
    EncodeLZSS [] false false = [] ∧ DecodeLZSS (EncodeLZSS [] false false) = [] :=
  ⟨rfl, rfl⟩

/-- C9 counterexample: the padded-empty output is not 16 zero bytes. -/
theorem C9_counterexample : ¬EncodeLZSS [] false false = List.replicate 16 0 := by
  decide

/-- C10: every index the decoder derives is in bounds: a wire-decoded match
length (from a byte, so `byte0 < 256`) is below the staging-buffer size 64,
and both the match-source index and the window-write index are reduced modulo
the window size 1023 before use. -/
theorem C10_decoder_in_bounds : ∀ b0 b1 nc i p : Nat, b0 < 256 →
    decodeWireLength b0 < MAX_CODED
    ∧ decodeSrcPos nc (decodeWireOffset b0 b1) i < WINDOW_SIZE
    ∧ decodeDstPos p < WINDOW_SIZE := by
  intro b0 b1 nc i p hb
  refine ⟨?_, ?_, ?_⟩
  · rw [decodeWireLength, shiftRight2_eq]
    have hmc : MAX_CODED = 64 := rfl
    omega
  · rw [decodeSrcPos]
    exact Nat.mod_lt _ (by rw [WSIZE]; omega)
  · rw [decodeDstPos]
    exact Nat.mod_lt _ (by rw [WSIZE]; omega)

/-- C10 witness: the in-bounds properties at `byte0 = 200`, `byte1 = 7`,
`nextChar = 5`, copy index 2, write cursor 2048. -/
theorem C10_witness :
    decodeWireLength 200 < MAX_CODED
    ∧ decodeSrcPos 5 (decodeWireOffset 200 7) 2 < WINDOW_SIZE
    ∧ decodeDstPos 2048 < WINDOW_SIZE :=
  C10_decoder_in_bounds 200 7 5 2 2048 (by decide)
